import Mathlib

/-!
# notion-blog: the Markdown generator (`pkg/generator.go`)

A shallow embedding of the generator of `antoinemartin/notion-blog`:
`wordWrap`, `emphFormat`, `ConvertRich`, `ConvertRichText`, `EmojiToName` and
`GenerateContent`, together with the parts of the Go standard library they
rest on (`utf8.DecodeRuneInString`, `unicode.IsSpace`, `strings.TrimSpace`,
`fmt.Sprintf` on the `%s` verb).

Go strings are byte sequences: `len` counts bytes and indices are byte
offsets, so a string is a `List UInt8` here.  A Go panic (division by zero,
a slice out of range, a nil dereference) is the error side of `Except`.
-/

set_option autoImplicit false

namespace NotionBlog

/-! ## Go strings and runes -/

/-- A Go `string` (or `[]byte`): a finite sequence of bytes. -/
abbrev GoString := List UInt8

/-- The UTF-8 bytes of a string literal, as the Go compiler stores it. -/
def str (s : String) : GoString := s.data.flatMap String.utf8EncodeChar

/-- A Go `rune`, a Unicode code point.  The decoder only produces values in `0 .. 0x10FFFF`. -/
abbrev Rune := Nat

/-- Go's `utf8.RuneError`, U+FFFD. -/
def RuneError : Rune := 0xFFFD

/-- What stops a run of the program: a Go run-time panic, or the fuel of a loop of the
embedding running out (which the totality theorems exclude). -/
inductive Fault where
  | divideByZero
  | makesliceCapOutOfRange
  | sliceOutOfRange
  | nilDereference
  | outOfFuel
  deriving DecidableEq, Repr

instance instDecidableEqExcept {ε α : Type} [DecidableEq ε] [DecidableEq α] :
    DecidableEq (Except ε α)
  | .ok a, .ok b => if h : a = b then isTrue (by rw [h]) else isFalse (by simpa using h)
  | .error a, .error b => if h : a = b then isTrue (by rw [h]) else isFalse (by simpa using h)
  | .ok _, .error _ => isFalse (by simp)
  | .error _, .ok _ => isFalse (by simp)

/-- Lower bound of the second byte accepted after the leading byte `s0`
(Go's `utf8.acceptRanges[first[s0] >> 4].lo`). -/
def acceptLo (s0 : UInt8) : UInt8 :=
  if s0 = 0xE0 then 0xA0 else if s0 = 0xF0 then 0x90 else 0x80

/-- Upper bound of the second byte accepted after the leading byte `s0`
(Go's `utf8.acceptRanges[first[s0] >> 4].hi`). -/
def acceptHi (s0 : UInt8) : UInt8 :=
  if s0 = 0xED then 0x9F else if s0 = 0xF4 then 0x8F else 0xBF

/-- A continuation byte of UTF-8, `0x80 .. 0xBF` (Go's `locb .. hicb`). -/
def isContinuation (b : UInt8) : Bool := decide (0x80 ≤ b ∧ b ≤ 0xBF)

/-- The second byte `s1` is accepted after the leading byte `s0`. -/
def isAccepted (s0 s1 : UInt8) : Bool := decide (acceptLo s0 ≤ s1 ∧ s1 ≤ acceptHi s0)

/-- The decoder on a two-byte leading byte `s0` (`0xC2 .. 0xDF`) followed by `rest`. -/
def decodeRune2 (s0 : UInt8) (rest : GoString) : Rune × Nat :=
  match rest with
  | s1 :: _ =>
    if isAccepted s0 s1 then (((s0.toNat &&& 0x1F) <<< 6) ||| (s1.toNat &&& 0x3F), 2)
    else (RuneError, 1)
  | [] => (RuneError, 1)

/-- The decoder on a three-byte leading byte `s0` (`0xE0 .. 0xEF`) followed by `rest`. -/
def decodeRune3 (s0 : UInt8) (rest : GoString) : Rune × Nat :=
  match rest with
  | s1 :: s2 :: _ =>
    if isAccepted s0 s1 && isContinuation s2 then
      (((s0.toNat &&& 0x0F) <<< 12) ||| ((s1.toNat &&& 0x3F) <<< 6) ||| (s2.toNat &&& 0x3F), 3)
    else (RuneError, 1)
  | _ => (RuneError, 1)

/-- The decoder on a four-byte leading byte `s0` (`0xF0 .. 0xF4`) followed by `rest`. -/
def decodeRune4 (s0 : UInt8) (rest : GoString) : Rune × Nat :=
  match rest with
  | s1 :: s2 :: s3 :: _ =>
    if isAccepted s0 s1 && isContinuation s2 && isContinuation s3 then
      (((s0.toNat &&& 0x07) <<< 18) ||| ((s1.toNat &&& 0x3F) <<< 12)
        ||| ((s2.toNat &&& 0x3F) <<< 6) ||| (s3.toNat &&& 0x3F), 4)
    else (RuneError, 1)
  | _ => (RuneError, 1)

/-- Go's `utf8.DecodeRuneInString`: the first rune of `s` and its width in bytes.
`(RuneError, 0)` for the empty string and `(RuneError, 1)` for an encoding that is invalid or
cut short; the leading byte gives the width (Go's table `first`): ASCII below `0x80`, two
bytes from `0xC2`, three from `0xE0`, four from `0xF0` to `0xF4`, invalid otherwise. -/
def DecodeRuneInString (s : GoString) : Rune × Nat :=
  match s with
  | [] => (RuneError, 0)
  | s0 :: rest =>
    if s0 < 0x80 then (s0.toNat, 1)
    else if s0 < 0xC2 then (RuneError, 1)
    else if s0 < 0xE0 then decodeRune2 s0 rest
    else if s0 < 0xF0 then decodeRune3 s0 rest
    else if s0 < 0xF5 then decodeRune4 s0 rest
    else (RuneError, 1)

/-- Go's `unicode.IsSpace`: the Latin-1 spaces `\t \n \v \f \r`, space, U+0085, U+00A0,
and beyond Latin-1 the code points of the `White_Space` table. -/
def IsSpace (r : Rune) : Bool :=
  if r ≤ 0xFF then
    decide (r = 0x09 ∨ r = 0x0A ∨ r = 0x0B ∨ r = 0x0C ∨ r = 0x0D ∨ r = 0x20
      ∨ r = 0x85 ∨ r = 0xA0)
  else
    decide (r = 0x1680 ∨ (0x2000 ≤ r ∧ r ≤ 0x200A) ∨ r = 0x2028 ∨ r = 0x2029
      ∨ r = 0x202F ∨ r = 0x205F ∨ r = 0x3000)

/-- The Go slice expression `s[lo:hi]`; it panics unless `lo ≤ hi ≤ len(s)`. -/
def slice (s : GoString) (lo hi : Nat) : Except Fault GoString :=
  if lo ≤ hi ∧ hi ≤ s.length then .ok ((s.take hi).drop lo) else .error .sliceOutOfRange

/-! ## `wordWrap` -/

/-- The variables of the loop of `wordWrap`. -/
structure WrapState where
  wrap : GoString
  eoLine : Int
  inWord : Bool
  i : Nat
  j : Nat
  deriving DecidableEq, Repr

/-- Outcome of one pass through the body of the loop of `wordWrap`. -/
inductive WrapStep where
  | next (st : WrapState)
  | done (out : GoString)
  | fault (f : Fault)
  deriving DecidableEq, Repr

/-- The part of the loop body run when a word has just ended (`unicode.IsSpace(r)` and
`inWord`): a newline and the prefix when `i > eoLine`, else a space when the output is not
empty; then the word `text[j:i]`. -/
def emitWord (lineWidth : Int) (pfx : GoString) (st : WrapState) (word : GoString) :
    WrapState :=
  if (st.i : Int) > st.eoLine then
    let wrap1 := st.wrap ++ [0x0A]
    { st with
      wrap := wrap1 ++ pfx ++ word
      eoLine := (wrap1.length : Int) + lineWidth - (pfx.length : Int) }
  else if st.wrap.length > 0 then
    { st with wrap := st.wrap ++ [0x20] ++ word }
  else
    { st with wrap := st.wrap ++ word }

/-- One pass through the body of the `for` loop of `wordWrap` (generator.go, lines 30-53). -/
def wordWrapStep (text : GoString) (lineWidth : Int) (pfx : GoString) (st : WrapState) :
    WrapStep :=
  match slice text st.i text.length with
  | .error f => .fault f
  | .ok tail =>
    let d := DecodeRuneInString tail
    let size := d.2
    let r : Rune := if size = 0 ∧ d.1 = RuneError then 0x20 else d.1
    let afterSpace : Except Fault WrapState :=
      if IsSpace r then
        if st.inWord then
          match slice text st.j st.i with
          | .error f => .error f
          | .ok word => .ok { emitWord lineWidth pfx st word with inWord := false }
        else .ok { st with inWord := false }
      else if !st.inWord then .ok { st with inWord := true, j := st.i }
      else .ok st
    match afterSpace with
    | .error f => .fault f
    | .ok st1 =>
      if size = 0 ∧ r = 0x20 then .done st1.wrap
      else .next { st1 with i := st1.i + size }

/-- The `for` loop of `wordWrap`, run for at most `fuel` passes. -/
def wordWrapLoop (text : GoString) (lineWidth : Int) (pfx : GoString) :
    Nat → WrapState → Except Fault GoString
  | 0, _ => .error .outOfFuel
  | fuel + 1, st =>
    match wordWrapStep text lineWidth pfx st with
    | .fault f => .error f
    | .done out => .ok out
    | .next st1 => wordWrapLoop text lineWidth pfx fuel st1

/-- The state of `wordWrap` on entry to its loop. -/
def wordWrapInit (lineWidth : Int) (pfx : GoString) : WrapState :=
  { wrap := [], eoLine := lineWidth - (pfx.length : Int), inWord := false, i := 0, j := 0 }

/-- `wordWrap(text, lineWidth, prefix)` (generator.go, lines 25-56).  The capacity
`len(text)+2*len(text)/lineWidth` of the output buffer is computed first: it panics when
`lineWidth` is zero and `make` panics when it is negative.  The index `i` grows by at least
one byte per pass until the end of `text`, so `len(text) + 1` passes are enough. -/
def wordWrap (text : GoString) (lineWidth : Int) (pfx : GoString) : Except Fault GoString :=
  if lineWidth = 0 then .error .divideByZero
  else if (text.length : Int) + Int.tdiv (2 * (text.length : Int)) lineWidth < 0 then
    .error .makesliceCapOutOfRange
  else wordWrapLoop text lineWidth pfx (text.length + 1) (wordWrapInit lineWidth pfx)

/-- The variables of the loop of `wordWrap` (generator.go, lines 29-54) at the start of pass
number `n` (from 0), `none` when the loop has ended before that pass. -/
def wordWrapAfter (text : GoString) (lineWidth : Int) (pfx : GoString) : Nat → Option WrapState
  | 0 => some (wordWrapInit lineWidth pfx)
  | n + 1 =>
    match wordWrapAfter text lineWidth pfx n with
    | none => none
    | some st =>
      match wordWrapStep text lineWidth pfx st with
      | .next st1 => some st1
      | .done _ => none
      | .fault _ => none

/-! ## `fmt.Sprintf`, `fmt.Sprintln` and `strings.TrimSpace` -/

/-- What `fmt.Sprintf` appends for operands no verb consumed: `%!(EXTRA string=a, string=b)`. -/
def sprintfExtra : List GoString → GoString
  | [] => []
  | args => str "%!(EXTRA " ++ (str ", ").intercalate (args.map (str "string=" ++ ·)) ++ str ")"

/-- Go's `fmt.Sprintf` on string operands, for the formats of this program: literal text,
`%%`, and the verbs `%s` and `%v`.  A verb without operand prints `%!verb(MISSING)`, any other
verb `%!verb(string=operand)`, a lone final `%` prints `%!(NOVERB)`.  Flags, widths and the
verbs `%q`, `%x`, `%X` are not modelled; no format of the program has them. -/
def Sprintf : GoString → List GoString → GoString
  | [], args => sprintfExtra args
  | c :: rest, args =>
    if c = 0x25 then
      match rest, args with
      | [], args => str "%!(NOVERB)" ++ sprintfExtra args
      | v :: rest1, [] =>
        if v = 0x25 then 0x25 :: Sprintf rest1 []
        else str "%!" ++ [v] ++ str "(MISSING)" ++ Sprintf rest1 []
      | v :: rest1, a :: args1 =>
        if v = 0x25 then 0x25 :: Sprintf rest1 (a :: args1)
        else if v = 0x73 ∨ v = 0x76 then a ++ Sprintf rest1 args1
        else str "%!" ++ [v] ++ str "(string=" ++ a ++ str ")" ++ Sprintf rest1 args1
    else c :: Sprintf rest args

/-- Go's `fmt.Sprintln` on string operands: the operands separated by spaces, then a newline. -/
def Sprintln (args : List GoString) : GoString :=
  (str " ").intercalate args ++ [0x0A]

/-- Go's `utf8.RuneStart`: `b` is not a continuation byte. -/
def RuneStart (b : UInt8) : Bool := b &&& 0xC0 != 0x80

/-- The backward scan of `utf8.DecodeLastRuneInString` for the start of the last rune: called
with `start + 1`, it tries `start`, `start - 1`, ... while `start ≥ lim` and stops at the first
byte that starts a rune; the result is the value of `start` when the Go loop exits. -/
def lastRuneScan (s : GoString) (lim : Nat) : Nat → Int
  | 0 => -1
  | start + 1 =>
    if lim ≤ start then
      if RuneStart (s.getD start 0) then (start : Int) else lastRuneScan s lim start
    else (start : Int)

/-- Go's `utf8.DecodeLastRuneInString`: the last rune of `s` and its width in bytes. -/
def DecodeLastRuneInString (s : GoString) : Rune × Nat :=
  let e := s.length
  if e = 0 then (RuneError, 0)
  else
    let last := s.getD (e - 1) 0
    if last < 0x80 then (last.toNat, 1)
    else
      let lim := e - 4
      let start := (lastRuneScan s lim (e - 1)).toNat
      let d := DecodeRuneInString (s.drop start)
      if start + d.2 ≠ e then (RuneError, 1) else d

/-- Leading white space removed (Go's `strings.TrimLeftFunc(s, unicode.IsSpace)`): runes are
decoded from the front and dropped while they are spaces; `fuel` bounds the number of runes. -/
def trimLeftSpace : Nat → GoString → GoString
  | 0, s => s
  | fuel + 1, s =>
    let d := DecodeRuneInString s
    if d.2 = 0 then s
    else if IsSpace d.1 then trimLeftSpace fuel (s.drop d.2)
    else s

/-- Trailing white space removed (Go's `strings.TrimRightFunc(s, unicode.IsSpace)`): runes are
decoded from the back and dropped while they are spaces; `fuel` bounds the number of runes. -/
def trimRightSpace : Nat → GoString → GoString
  | 0, s => s
  | fuel + 1, s =>
    let d := DecodeLastRuneInString s
    if d.2 = 0 then s
    else if IsSpace d.1 then trimRightSpace fuel (s.take (s.length - d.2))
    else s

/-- Go's `strings.TrimSpace`: `s` without its leading and trailing white space, as defined by
Unicode.  Every rune is at least one byte wide, so `len(s)` runes of fuel are enough. -/
def TrimSpace (s : GoString) : GoString :=
  let t := trimLeftSpace s.length s
  trimRightSpace t.length t

/-- The string `s` is white space only: removing its leading white space leaves nothing. -/
def onlySpace (s : GoString) : Bool := decide (trimLeftSpace s.length s = [])

/-! ## Rich text -/

/-- The `notionapi.Annotations` of a span. -/
structure Annotations where
  Bold : Bool
  Italic : Bool
  Strikethrough : Bool
  Underline : Bool
  Code : Bool
  Color : GoString
  deriving DecidableEq, Repr

/-- The `notionapi.Link` of a text span. -/
structure Link where
  Url : GoString
  deriving DecidableEq, Repr

/-- The `notionapi.Text` of a span: its content and an optional link (`*Link`). -/
structure Text where
  Content : GoString
  Link : Option Link
  deriving DecidableEq, Repr

/-- The fields of `notionapi.RichText` the generator reads: the object type (the field `Type`),
the text, and
the annotations (`*Annotations`, `none` for nil). -/
structure RichText where
  Typ : GoString
  Text : Text
  Annotations : Option Annotations
  deriving DecidableEq, Repr

/-- The constant `notionapi.ObjectTypeText`. -/
def ObjectTypeText : GoString := str "text"

/-- The constant `notionapi.ObjectTypeList`. -/
def ObjectTypeList : GoString := str "list"

/-- `emphFormat(a)` (generator.go, lines 58-86): the `Sprintf` format of a span's emphasis. -/
def emphFormat (a : Option Annotations) : GoString :=
  match a with
  | none => str "%s"
  | some a =>
    if a.Code then str "`%s`"
    else
      let s : GoString :=
        if a.Bold && a.Italic then str "***%s***"
        else if a.Bold then str "**%s**"
        else if a.Italic then str "*%s*"
        else str "%s"
      if a.Underline then str "__" ++ s ++ str "__"
      else if a.Strikethrough then str "~~" ++ s ++ str "~~"
      else s

/-- `ConvertRich(t)` (generator.go, lines 88-101). -/
def ConvertRich (t : RichText) : GoString :=
  if t.Typ = ObjectTypeText then
    match t.Text.Link with
    | some l =>
      Sprintf (emphFormat t.Annotations) [Sprintf (str "[%s](%s)") [t.Text.Content, l.Url]]
    | none => Sprintf (emphFormat t.Annotations) [t.Text.Content]
  else if t.Typ = ObjectTypeList then []
  else []

/-- `ConvertRichText(t)` (generator.go, lines 103-110): every span is written to a buffer in
turn, and the buffer is trimmed. -/
def ConvertRichText (t : List RichText) : GoString :=
  let buf := t.foldl (fun buf word => buf ++ ConvertRich word) []
  TrimSpace buf

/-! ## Blocks, configuration and the outside world -/

/-- The `notionapi.Icon` of a callout; `Emoji` is a `*Emoji`, and `Emoji` is a string type. -/
structure Icon where
  Emoji : Option GoString
  deriving DecidableEq, Repr

/-- The `notionapi.FileObject` of an image. -/
structure FileObject where
  URL : GoString
  deriving DecidableEq, Repr

/-- The block kinds of the `notionapi` the generator tells apart, each with the fields the
generator reads.  `Unsupported` is `notionapi.UnsupportedBlock`, which keeps the type name the
API reported; `Other` is every block type that has no case of its own in the `switch`. -/
inductive Block where
  | Paragraph (RichText : List RichText) (Children : List Block)
  | Heading1 (RichText : List RichText)
  | Heading2 (RichText : List RichText)
  | Heading3 (RichText : List RichText)
  | Callout (Icon : Option Icon) (RichText : List RichText) (Children : List Block)
  | Bookmark (URL : GoString)
  | Quote (RichText : List RichText) (Children : List Block)
  | BulletedListItem (RichText : List RichText) (Children : List Block)
  | NumberedListItem (RichText : List RichText) (Children : List Block)
  | Image (File : Option FileObject) (Caption : List RichText)
  | Code (Language : GoString) (RichText : List RichText)
  | Unsupported (Typ : GoString)
  | Divider
  | Other (Typ : GoString)

/-- The constant `notionapi.BlockTypeBulletedListItem`. -/
def BlockTypeBulletedListItem : GoString := str "bulleted_list_item"

/-- The constant `notionapi.BlockTypeNumberedListItem`. -/
def BlockTypeNumberedListItem : GoString := str "numbered_list_item"

/-- `block.GetType()`: the type name the API gives the block. -/
def Block.GetType : Block → GoString
  | .Paragraph _ _ => str "paragraph"
  | .Heading1 _ => str "heading_1"
  | .Heading2 _ => str "heading_2"
  | .Heading3 _ => str "heading_3"
  | .Callout _ _ _ => str "callout"
  | .Bookmark _ => str "bookmark"
  | .Quote _ _ => str "quote"
  | .BulletedListItem _ _ => BlockTypeBulletedListItem
  | .NumberedListItem _ _ => BlockTypeNumberedListItem
  | .Image _ _ => str "image"
  | .Code _ _ => str "code"
  | .Unsupported t => t
  | .Divider => str "divider"
  | .Other t => t

/-- The fields of `BlogConfig` the generator reads. -/
structure BlogConfig where
  UseShortcodes : Bool
  ImagesFolder : GoString
  ImagesLink : GoString
  ArchetypeFile : GoString
  deriving DecidableEq, Repr

/-- The metadata `parseMetadata` returns for a bookmark. -/
structure Metadata where
  URL : GoString
  Title : GoString
  Image : GoString
  Description : GoString
  deriving DecidableEq, Repr

/-- The network behind the generator, taken as a parameter: `getImage` gives the reference
path of a downloaded image (its error is dropped by the caller), `parseMetadata` the metadata
of a bookmarked page and an optional error. -/
structure World where
  getImage : GoString → BlogConfig → GoString
  parseMetadata : GoString → BlogConfig → Metadata × Option GoString

/-- What a run has written: `w` is the sink handed to `GenerateContent`, `stdout` the notices
of `fmt.Println`, `logged` the messages of `log.Println`. -/
structure Output where
  w : GoString
  stdout : GoString
  logged : List GoString
  deriving DecidableEq, Repr

/-- `EmojiToName(emoji)` (generator.go, lines 191-218). -/
def EmojiToName (emoji : GoString) : GoString :=
  if emoji = str "⚠️" then str "warning"
  else if emoji = str "💡" then str "tip"
  else if emoji = str "🐞" then str "bug"
  else if emoji = str "❓" ∨ emoji = str "❔" then str "question"
  else if emoji = str "❌" ∨ emoji = str "🧨" ∨ emoji = str "💣" then str "failure"
  else if emoji = str "✅" ∨ emoji = str "🆗" ∨ emoji = str "☑️" ∨ emoji = str "✔️" then str "success"
  else if emoji = str "☠️" ∨ emoji = str "⛔" ∨ emoji = str "🛑" then str "danger"
  else if emoji = str "📋" then str "abstract"
  else if emoji = str "💬" then str "quote"
  else if emoji = str "ℹ️" then str "info"
  else if emoji = str "✍️" then str "example"
  else str "note"

/-- Modelled from the spec: the concatenation of a prefix stack in front of an emission line,
"concatenation of all active prefixes, outermost first".  The recursion hands the stack on
with the own prefix of a block put in front of the inherited ones (generator.go, lines
298-312), so the outermost prefix is the last of the stack and the innermost the first. -/
def joinPrefixes (prefixes : List GoString) : GoString := prefixes.reverse.flatten

/-- Modelled from the spec: the helper `fprintf(w, prefixes, format, args...)`, whose source
file is not among the sources.  "Every block-level emission line is prefixed with the current
inherited prefix stack (concatenation of all active prefixes, outermost first)": the joined
prefixes, then the formatted text as one line.  A format that ends its line itself is written
as it is (a heading is "`#` + inline rich text + newline", `# Title\n` in the example of the
spec); every other format gets the end of its line (with the empty format that is the
paragraph's "extra blank line separator"). -/
def fprintf (w : GoString) (prefixes : List GoString) (format : GoString)
    (args : List GoString) : GoString :=
  w ++ joinPrefixes prefixes ++ Sprintf format args
    ++ (if format.getLast? = some 0x0A then [] else [0x0A])

/-- Modelled from the spec: the helper `fprintln(w, prefixes, args...)`, whose source file is
not among the sources: the joined prefixes, outermost first, then the operands as
`fmt.Fprintln` prints them (without operands it is the quote's "trailing blank line"). -/
def fprintln (w : GoString) (prefixes : List GoString) (args : List GoString) : GoString :=
  w ++ joinPrefixes prefixes ++ Sprintln args

/-! ## `GenerateContent` -/

mutual

/-- The `for` loop of `GenerateContent` (generator.go, lines 230-342) over the blocks that are
left, with the loop index `blkIdx` and the two list-run flags. -/
def generateLoop (world : World) (config : BlogConfig) :
    List Block → List GoString → Nat → Nat → Bool → Bool → Output → Except Fault Output
  | [], _, _, _, _, _, out => .ok out
  | block :: rest, prefixes, lastIndex, blkIdx, numberedList, bulletedList, out =>
    -- Add line break after list is finished
    let endBulleted := bulletedList && block.GetType != BlockTypeBulletedListItem
    let bulletedList1 := if endBulleted then false else bulletedList
    let out1 : Output := if endBulleted then { out with w := out.w ++ [0x0A] } else out
    let endNumbered := numberedList && block.GetType != BlockTypeNumberedListItem
    let numberedList1 := if endNumbered then false else numberedList
    let out2 : Output := if endNumbered then { out1 with w := out1.w ++ [0x0A] } else out1
    match generateBlock world config block prefixes lastIndex blkIdx numberedList1
        bulletedList1 out2 with
    | .error f => .error f
    | .ok (numberedList2, bulletedList2, out3) =>
      generateLoop world config rest prefixes lastIndex (blkIdx + 1) numberedList2
        bulletedList2 out3

/-- The `switch` of the loop body of `GenerateContent` (generator.go, lines 241-341) for one
block: the list-run flags and the output after it.  A recursive call
`GenerateContent(w, children, config, p...)` is the loop on `children` with fresh flags, which
writes nothing when `children` is empty. -/
def generateBlock (world : World) (config : BlogConfig) :
    Block → List GoString → Nat → Nat → Bool → Bool → Output →
      Except Fault (Bool × Bool × Output)
  | .Paragraph richText children, prefixes, lastIndex, blkIdx, numberedList, bulletedList,
      out =>
    let para := ConvertRichText richText
    let emitted : Except Fault Output :=
      if para ≠ str "" ∧ para ≠ str "\n" then
        match wordWrap para 80 (str "") with
        | .error f => .error f
        | .ok wrapped =>
          let out1 : Output := { out with w := fprintln out.w prefixes [wrapped] }
          if blkIdx < lastIndex then .ok { out1 with w := fprintf out1.w prefixes (str "") [] }
          else .ok out1
      else .ok out
    match emitted with
    | .error f => .error f
    | .ok out2 =>
      match generateLoop world config children [] (children.length - 1) 0 false false out2 with
      | .error f => .error f
      | .ok out3 => .ok (numberedList, bulletedList, out3)
  | .Heading1 richText, prefixes, _, _, numberedList, bulletedList, out =>
    .ok (numberedList, bulletedList,
      { out with w := fprintf out.w prefixes (str "# %s\n") [ConvertRichText richText] })
  | .Heading2 richText, prefixes, _, _, numberedList, bulletedList, out =>
    .ok (numberedList, bulletedList,
      { out with w := fprintf out.w prefixes (str "## %s\n") [ConvertRichText richText] })
  | .Heading3 richText, prefixes, _, _, numberedList, bulletedList, out =>
    .ok (numberedList, bulletedList,
      { out with w := fprintf out.w prefixes (str "### %s\n") [ConvertRichText richText] })
  | .Callout icon richText children, prefixes, _, _, numberedList, bulletedList, out =>
    if !config.UseShortcodes then .ok (numberedList, bulletedList, out)
    else
      let out1 : Output :=
        match icon with
        | some ic =>
          match ic.Emoji with
          | some emoji =>
            { out with
              w := fprintf out.w prefixes (str "\x7b\x7b< admonition %s >\x7d\x7d\n")
                [EmojiToName emoji] }
          | none =>
            { out with
              w := fprintf out.w prefixes (str "\x7b\x7b< admonition note >\x7d\x7d\n") [] }
        | none => out
      let out2 : Output := { out1 with w := fprintln out1.w prefixes [ConvertRichText richText] }
      match generateLoop world config children prefixes (children.length - 1) 0 false false
          out2 with
      | .error f => .error f
      | .ok out3 =>
        .ok (numberedList, bulletedList,
          { out3 with w := fprintln out3.w prefixes [str "\x7b\x7b< /admonition >\x7d\x7d\n"] })
  | .Bookmark url, prefixes, _, _, numberedList, bulletedList, out =>
    if !config.UseShortcodes then
      .ok (numberedList, bulletedList,
        { out with w := fprintf out.w prefixes (str "[%s](%s)") [url, url] })
    else
      let res := world.parseMetadata url config
      let og := res.1
      let out1 : Output :=
        match res.2 with
        | some err =>
          { out with logged := out.logged ++ [Sprintln [str "error getting bookmark metadata:", err]] }
        | none => out
      .ok (numberedList, bulletedList,
        { out1 with
          w := fprintf out1.w prefixes
            (str "\x7b\x7b< bookmark url=\"%s\" title=\"%s\" img=\"%s\" >\x7d\x7d%s\x7b\x7b< /bookmark >\x7d\x7d")
            [og.URL, og.Title, og.Image, og.Description] })
  | .Quote richText children, prefixes, _, _, numberedList, bulletedList, out =>
    match wordWrap (ConvertRichText richText) 80 (prefixes ++ [str "> "]).flatten with
    | .error f => .error f
    | .ok wrapped =>
      let out1 : Output := { out with w := fprintf out.w prefixes (str "> %s") [wrapped] }
      match generateLoop world config children ([str "> "] ++ prefixes)
          (children.length - 1) 0 false false out1 with
      | .error f => .error f
      | .ok out2 =>
        .ok (numberedList, bulletedList, { out2 with w := fprintln out2.w prefixes [] })
  | .BulletedListItem richText children, prefixes, _, _, numberedList, _, out =>
    match wordWrap (ConvertRichText richText) 80 (prefixes ++ [str "  "]).flatten with
    | .error f => .error f
    | .ok wrapped =>
      let out1 : Output := { out with w := fprintf out.w prefixes (str "- %s") [wrapped] }
      match generateLoop world config children ([str "    "] ++ prefixes)
          (children.length - 1) 0 false false out1 with
      | .error f => .error f
      | .ok out2 => .ok (numberedList, true, out2)
  | .NumberedListItem richText children, prefixes, _, _, _, bulletedList, out =>
    let out1 : Output :=
      { out with w := fprintf out.w prefixes (str "1. %s") [ConvertRichText richText] }
    match generateLoop world config children ([str "    "] ++ prefixes)
        (children.length - 1) 0 false false out1 with
    | .error f => .error f
    | .ok out2 => .ok (true, bulletedList, out2)
  | .Image file caption0, prefixes, _, _, numberedList, bulletedList, out =>
    match file with
    | none => .error .nilDereference
    | some f =>
      let src := world.getImage f.URL config
      let caption1 := ConvertRichText caption0
      let caption := if caption1 = str "" then str "image" else caption1
      .ok (numberedList, bulletedList,
        { out with w := fprintf out.w prefixes (str "![%s](%s)\n") [caption, src] })
  | .Code language richText, prefixes, _, _, numberedList, bulletedList, out =>
    let out1 : Output :=
      if language = str "plain text" then { out with w := fprintln out.w prefixes [str "```"] }
      else { out with w := fprintf out.w prefixes (str "```%s") [language] }
    let out2 : Output := { out1 with w := fprintln out1.w prefixes [ConvertRichText richText] }
    .ok (numberedList, bulletedList,
      { out2 with w := fprintln out2.w prefixes [str "```\n"] })
  | .Unsupported typ, _, _, _, numberedList, bulletedList, out =>
    if typ ≠ str "unsupported" then
      .ok (numberedList, bulletedList,
        { out with stdout := out.stdout ++ Sprintln [str "ℹ Unimplemented block", typ] })
    else
      .ok (numberedList, bulletedList,
        { out with stdout := out.stdout ++ Sprintln [str "ℹ Unsupported block type"] })
  | .Divider, prefixes, _, _, numberedList, bulletedList, out =>
    .ok (numberedList, bulletedList,
      { out with w := fprintln out.w prefixes [str "<!-- more -->\n"] })
  | .Other typ, _, _, _, numberedList, bulletedList, out =>
    .ok (numberedList, bulletedList,
      { out with stdout := out.stdout ++ Sprintln [str "ℹ Unimplemented block", typ] })

end

/-- `GenerateContent(w, blocks, config, prefixes...)` (generator.go, lines 220-343): nothing
for an empty sequence, else the loop from index 0 with both list-run flags false. -/
def GenerateContent (world : World) (config : BlogConfig) (out : Output) (blocks : List Block)
    (prefixes : List GoString) : Except Fault Output :=
  if blocks.length = 0 then .ok out
  else generateLoop world config blocks prefixes (blocks.length - 1) 0 false false out

/-! ## The markers of an emphasis format -/

/-- The marker `emphFormat` puts before the `%s` of its format, from the five flags. -/
def emphOpeningOf (bold italic strikethrough underline code : Bool) : GoString :=
  if code then str "`"
  else
    (if underline then str "__" else if strikethrough then str "~~" else [])
      ++ (if bold && italic then str "***" else if bold then str "**"
        else if italic then str "*" else [])

/-- The marker `emphFormat` puts after the `%s` of its format, from the five flags. -/
def emphClosingOf (bold italic strikethrough underline code : Bool) : GoString :=
  if code then str "`"
  else
    (if bold && italic then str "***" else if bold then str "**"
        else if italic then str "*" else [])
      ++ (if underline then str "__" else if strikethrough then str "~~" else [])

/-- The marker `emphFormat` puts before the `%s` of its format. -/
def emphOpening : Option Annotations → GoString
  | none => []
  | some a => emphOpeningOf a.Bold a.Italic a.Strikethrough a.Underline a.Code

/-- The marker `emphFormat` puts after the `%s` of its format. -/
def emphClosing : Option Annotations → GoString
  | none => []
  | some a => emphClosingOf a.Bold a.Italic a.Strikethrough a.Underline a.Code

/-! ## `wordWrap` as a fold over the words of the text -/

/-- The scan behind `wordEnds`: `s` is the text from offset `i` on, `cur` the word read so
far, `fuel` bounds the runes. -/
def wordEndsLoop : Nat → GoString → Nat → GoString → List (GoString × Nat)
  | 0, _, i, cur => if cur = [] then [] else [(cur, i)]
  | fuel + 1, s, i, cur =>
    let d := DecodeRuneInString s
    if d.2 = 0 then (if cur = [] then [] else [(cur, i)])
    else if IsSpace d.1 then
      if cur = [] then wordEndsLoop fuel (s.drop d.2) (i + d.2) []
      else (cur, i) :: wordEndsLoop fuel (s.drop d.2) (i + d.2) []
    else wordEndsLoop fuel (s.drop d.2) (i + d.2) (cur ++ s.take d.2)

/-- The white-space-delimited words of a text, each with the byte offset of the text at
which it ends. -/
def wordEnds (text : GoString) : List (GoString × Nat) :=
  wordEndsLoop text.length text 0 []

/-- What `wordWrap` does with one word that ends at input offset `we.2`, from the output
`acc.1` and the column `acc.2` (`eoLine`) before it. -/
def wrapWord (lineWidth : Int) (pfx : GoString) (acc : GoString × Int)
    (we : GoString × Nat) : GoString × Int :=
  if (we.2 : Int) > acc.2 then
    (acc.1 ++ [0x0A] ++ pfx ++ we.1,
      ((acc.1 ++ [0x0A]).length : Int) + lineWidth - (pfx.length : Int))
  else if acc.1.length > 0 then (acc.1 ++ [0x20] ++ we.1, acc.2)
  else (acc.1 ++ we.1, acc.2)

/-- The words of a text wrapped one after the other. -/
def wrapWords (lineWidth : Int) (pfx : GoString) (ws : List (GoString × Nat))
    (acc : GoString × Int) : GoString × Int :=
  ws.foldl (wrapWord lineWidth pfx) acc

/-! ## Reading an output back -/

/-- The lines of an output: `s` split at every newline byte. -/
def splitLines : GoString → List GoString
  | [] => [[]]
  | c :: rest =>
    if c = 0x0A then [] :: splitLines rest
    else
      match splitLines rest with
      | [] => [[c]]
      | l :: ls => (c :: l) :: ls

/-- The white-space-delimited words of a text (Go's `strings.Fields`): the maximal runs of
runes that are not spaces. -/
def Fields (s : GoString) : List GoString := (wordEnds s).map Prod.fst

/-- A rich text of one text span without link or annotations. -/
def plainText (content : GoString) : List RichText :=
  [⟨ObjectTypeText, ⟨content, none⟩, none⟩]

/-- A world without network answers: an image keeps its URL as reference, a bookmark has its
URL as only metadata and no error. -/
def offlineWorld : World :=
  { getImage := fun url _ => url
    parseMetadata := fun url _ => (⟨url, [], [], []⟩, none) }

/-- The lines `ls` with `b` appended to the last of them. -/
def appendToLast : List GoString → GoString → List GoString
  | [], b => [b]
  | [l], b => [l ++ b]
  | l :: l1 :: ls, b => l :: appendToLast (l1 :: ls) b

/-- The words `ws` (each with the offset where it ends) lie one after the other in the text:
the first ends at least `g` bytes and its own length after offset `p`, every later word at
least one byte and its own length after the end of the word before it. -/
def wordsSpaced : Nat → Nat → List (GoString × Nat) → Prop
  | _, _, [] => True
  | p, g, we :: rest => p + g + we.1.length ≤ we.2 ∧ wordsSpaced we.2 1 rest

/-! # Theorems

## Lemmas on `Sprintf` and `emphFormat` -/

theorem Sprintf_cons_ne (c : UInt8) (rest : GoString) (args : List GoString) (hc : c ≠ 0x25) :
    Sprintf (c :: rest) args = c :: Sprintf rest args := by
  rw [Sprintf.eq_def]
  simp [hc]

theorem Sprintf_literal (lit : GoString) (h : ∀ c ∈ lit, c ≠ 0x25) (f : GoString)
    (args : List GoString) : Sprintf (lit ++ f) args = lit ++ Sprintf f args := by
  induction lit with
  | nil => rfl
  | cons c l ih =>
    have hc : c ≠ 0x25 := h c (List.mem_cons_self _ _)
    have hl : ∀ d ∈ l, d ≠ 0x25 := fun d hd => h d (List.mem_cons_of_mem _ hd)
    rw [List.cons_append, Sprintf_cons_ne _ _ _ hc, ih hl, List.cons_append]

theorem Sprintf_verb_s (rest : GoString) (a : GoString) (args : List GoString) :
    Sprintf (0x25 :: 0x73 :: rest) (a :: args) = a ++ Sprintf rest args := by
  rw [Sprintf.eq_def]
  simp

theorem Sprintf_no_verb (lit : GoString) (h : ∀ c ∈ lit, c ≠ 0x25) :
    Sprintf lit [] = lit := by
  have := Sprintf_literal lit h [] []
  simpa [Sprintf, sprintfExtra] using this

theorem str_verb_s : str "%s" = [0x25, 0x73] := by decide

/-- A format `pre%spost` without other verbs wraps its operand between `pre` and `post`. -/
theorem Sprintf_wrap (pre post x : GoString) (hpre : ∀ c ∈ pre, c ≠ 0x25)
    (hpost : ∀ c ∈ post, c ≠ 0x25) :
    Sprintf (pre ++ str "%s" ++ post) [x] = pre ++ x ++ post := by
  rw [List.append_assoc, Sprintf_literal pre hpre, str_verb_s]
  show pre ++ Sprintf (0x25 :: 0x73 :: post) [x] = pre ++ x ++ post
  rw [Sprintf_verb_s, Sprintf_no_verb post hpost, List.append_assoc]

/-- The link format of `ConvertRich`. -/
theorem Sprintf_link (c u : GoString) :
    Sprintf (str "[%s](%s)") [c, u] = str "[" ++ c ++ str "](" ++ u ++ str ")" := by
  have h : str "[%s](%s)" = [0x5B] ++ (0x25 :: 0x73 :: ([0x5D, 0x28] ++ (0x25 :: 0x73 :: [0x29]))) := by
    decide
  have h1 : str "[" = [0x5B] := by decide
  have h2 : str "](" = [0x5D, 0x28] := by decide
  have h3 : str ")" = [0x29] := by decide
  rw [h, Sprintf_literal _ (by decide), Sprintf_verb_s, Sprintf_literal _ (by decide),
    Sprintf_verb_s, Sprintf_no_verb _ (by decide), h1, h2, h3]
  simp

theorem emphFormat_eq (a : Option Annotations) :
    emphFormat a = emphOpening a ++ str "%s" ++ emphClosing a := by
  cases a with
  | none => decide
  | some a =>
    obtain ⟨b, i, s, u, c, col⟩ := a
    cases b <;> cases i <;> cases s <;> cases u <;> cases c <;> rfl

theorem emphOpeningOf_no_verb (b i s u c : Bool) :
    ∀ x ∈ emphOpeningOf b i s u c, x ≠ 0x25 := by
  cases b <;> cases i <;> cases s <;> cases u <;> cases c <;> decide

theorem emphClosingOf_no_verb (b i s u c : Bool) :
    ∀ x ∈ emphClosingOf b i s u c, x ≠ 0x25 := by
  cases b <;> cases i <;> cases s <;> cases u <;> cases c <;> decide

theorem emphOpening_no_verb (a : Option Annotations) : ∀ c ∈ emphOpening a, c ≠ 0x25 := by
  cases a with
  | none => decide
  | some a => exact emphOpeningOf_no_verb _ _ _ _ _

theorem emphClosing_no_verb (a : Option Annotations) : ∀ c ∈ emphClosing a, c ≠ 0x25 := by
  cases a with
  | none => decide
  | some a => exact emphClosingOf_no_verb _ _ _ _ _

/-- Applying the emphasis format to one operand puts the operand between the two markers. -/
theorem Sprintf_emphFormat (a : Option Annotations) (x : GoString) :
    Sprintf (emphFormat a) [x] = emphOpening a ++ x ++ emphClosing a := by
  rw [emphFormat_eq, Sprintf_wrap _ _ _ (emphOpening_no_verb a) (emphClosing_no_verb a)]

theorem ConvertRich_text (c : GoString) (a : Option Annotations) :
    ConvertRich ⟨ObjectTypeText, ⟨c, none⟩, a⟩ = emphOpening a ++ c ++ emphClosing a := by
  simp only [ConvertRich, if_true, Sprintf_emphFormat]

theorem ConvertRich_link (c u : GoString) (a : Option Annotations) :
    ConvertRich ⟨ObjectTypeText, ⟨c, some ⟨u⟩⟩, a⟩
      = emphOpening a ++ (str "[" ++ c ++ str "](" ++ u ++ str ")") ++ emphClosing a := by
  simp only [ConvertRich, if_true, Sprintf_emphFormat, Sprintf_link]

/-! ## Lemmas on the UTF-8 decoders -/

theorem DecodeRuneInString_nil : DecodeRuneInString [] = (RuneError, 0) := rfl

theorem decodeRune2_bounds (s0 : UInt8) (rest : GoString) :
    1 ≤ (decodeRune2 s0 rest).2 ∧ (decodeRune2 s0 rest).2 ≤ rest.length + 1 := by
  unfold decodeRune2
  split
  · split <;> simp
  · simp

theorem decodeRune3_bounds (s0 : UInt8) (rest : GoString) :
    1 ≤ (decodeRune3 s0 rest).2 ∧ (decodeRune3 s0 rest).2 ≤ rest.length + 1 := by
  unfold decodeRune3
  split
  · split <;> simp
  · simp

theorem decodeRune4_bounds (s0 : UInt8) (rest : GoString) :
    1 ≤ (decodeRune4 s0 rest).2 ∧ (decodeRune4 s0 rest).2 ≤ rest.length + 1 := by
  unfold decodeRune4
  split
  · split <;> simp
  · simp

theorem DecodeRuneInString_size_bounds (s : GoString) (h : s ≠ []) :
    1 ≤ (DecodeRuneInString s).2 ∧ (DecodeRuneInString s).2 ≤ s.length := by
  cases s with
  | nil => exact absurd rfl h
  | cons s0 rest =>
    unfold DecodeRuneInString
    simp only [List.length_cons]
    split_ifs
    · simp
    · simp
    · exact decodeRune2_bounds s0 rest
    · exact decodeRune3_bounds s0 rest
    · exact decodeRune4_bounds s0 rest
    · simp

theorem DecodeRuneInString_size_le (s : GoString) : (DecodeRuneInString s).2 ≤ s.length := by
  cases s with
  | nil => simp [DecodeRuneInString]
  | cons s0 rest => exact (DecodeRuneInString_size_bounds _ (by simp)).2

theorem DecodeRuneInString_size_eq_zero (s : GoString) :
    (DecodeRuneInString s).2 = 0 ↔ s = [] := by
  constructor
  · intro h
    by_contra hne
    have := (DecodeRuneInString_size_bounds s hne).1
    omega
  · intro h
    rw [h]
    rfl

theorem IsSpace_RuneError : IsSpace RuneError = false := by decide

/-- Cutting a string short leaves its first rune as it was or makes it `RuneError`. -/
theorem decodeRune2_append (s0 : UInt8) (t u : GoString) :
    (decodeRune2 s0 t).1 = (decodeRune2 s0 (t ++ u)).1 ∨ (decodeRune2 s0 t).1 = RuneError := by
  rcases t with _ | ⟨a, t⟩
  · right; rfl
  · left; rfl

theorem decodeRune3_append (s0 : UInt8) (t u : GoString) :
    (decodeRune3 s0 t).1 = (decodeRune3 s0 (t ++ u)).1 ∨ (decodeRune3 s0 t).1 = RuneError := by
  rcases t with _ | ⟨a, _ | ⟨b, t⟩⟩
  · right; rfl
  · right; rfl
  · left; rfl

theorem decodeRune4_append (s0 : UInt8) (t u : GoString) :
    (decodeRune4 s0 t).1 = (decodeRune4 s0 (t ++ u)).1 ∨ (decodeRune4 s0 t).1 = RuneError := by
  rcases t with _ | ⟨a, _ | ⟨b, _ | ⟨c, t⟩⟩⟩
  · right; rfl
  · right; rfl
  · right; rfl
  · left; rfl

theorem DecodeRuneInString_append (t u : GoString) (h : t ≠ []) :
    (DecodeRuneInString t).1 = (DecodeRuneInString (t ++ u)).1
      ∨ (DecodeRuneInString t).1 = RuneError := by
  cases t with
  | nil => exact absurd rfl h
  | cons s0 rest =>
    simp only [DecodeRuneInString, List.cons_append]
    split_ifs
    · left; rfl
    · left; rfl
    · exact decodeRune2_append s0 rest u
    · exact decodeRune3_append s0 rest u
    · exact decodeRune4_append s0 rest u
    · left; rfl

theorem lastRuneScan_lt (s : GoString) (lim n : Nat) : lastRuneScan s lim n < (n : Int) := by
  induction n with
  | zero => simp [lastRuneScan]
  | succ k ih =>
    unfold lastRuneScan
    split_ifs
    · push_cast; omega
    · push_cast; omega
    · push_cast; omega

theorem DecodeLastRuneInString_size_bounds (s : GoString) (h : s ≠ []) :
    1 ≤ (DecodeLastRuneInString s).2 ∧ (DecodeLastRuneInString s).2 ≤ s.length := by
  have hlen : 1 ≤ s.length := by
    cases s with
    | nil => exact absurd rfl h
    | cons a t => simp
  unfold DecodeLastRuneInString
  simp only
  split_ifs with h0 h1 h2
  · omega
  · simp; omega
  · simp; omega
  · have h3 : (lastRuneScan s (s.length - 4) (s.length - 1)).toNat
        + (DecodeRuneInString (s.drop (lastRuneScan s (s.length - 4) (s.length - 1)).toNat)).2
        = s.length := by
      by_contra hne
      exact h2 hne
    have h4 := lastRuneScan_lt s (s.length - 4) (s.length - 1)
    have h5 : (lastRuneScan s (s.length - 4) (s.length - 1)).toNat < s.length := by omega
    omega

/-- Removing leading white space leaves a suffix of the string. -/
theorem trimLeftSpace_suffix (fuel : Nat) (s : GoString) :
    ∃ l, s = l ++ trimLeftSpace fuel s := by
  induction fuel generalizing s with
  | zero => exact ⟨[], rfl⟩
  | succ n ih =>
    unfold trimLeftSpace
    simp only
    split_ifs
    · exact ⟨[], rfl⟩
    · obtain ⟨l, hl⟩ := ih (s.drop (DecodeRuneInString s).2)
      refine ⟨s.take (DecodeRuneInString s).2 ++ l, ?_⟩
      rw [List.append_assoc, ← hl, List.take_append_drop]
    · exact ⟨[], rfl⟩

/-- After removing the leading white space the string is empty or starts with a rune that is
not a space. -/
theorem trimLeftSpace_first (fuel : Nat) (s : GoString) (h : s.length ≤ fuel) :
    trimLeftSpace fuel s = []
      ∨ IsSpace (DecodeRuneInString (trimLeftSpace fuel s)).1 = false := by
  induction fuel generalizing s with
  | zero =>
    left
    have : s = [] := List.length_eq_zero.mp (by omega)
    rw [this]; rfl
  | succ n ih =>
    unfold trimLeftSpace
    simp only
    split_ifs with h0 h1
    · left
      exact (DecodeRuneInString_size_eq_zero s).mp h0
    · apply ih
      have hne : s ≠ [] := fun hs => h0 ((DecodeRuneInString_size_eq_zero s).mpr hs)
      have := (DecodeRuneInString_size_bounds s hne).1
      rw [List.length_drop]
      omega
    · right
      simpa using h1

/-- Removing trailing white space leaves a beginning of the string. -/
theorem trimRightSpace_beginning (fuel : Nat) (s : GoString) :
    ∃ r, s = trimRightSpace fuel s ++ r := by
  induction fuel generalizing s with
  | zero => exact ⟨[], by simp [trimRightSpace]⟩
  | succ n ih =>
    unfold trimRightSpace
    simp only
    split_ifs
    · exact ⟨[], by simp⟩
    · obtain ⟨r, hr⟩ := ih (s.take (s.length - (DecodeLastRuneInString s).2))
      refine ⟨r ++ s.drop (s.length - (DecodeLastRuneInString s).2), ?_⟩
      rw [← List.append_assoc, ← hr, List.take_append_drop]
    · exact ⟨[], by simp⟩

/-- After removing the trailing white space the string is empty or ends with a rune that is
not a space. -/
theorem trimRightSpace_last (fuel : Nat) (s : GoString) (h : s.length ≤ fuel) :
    trimRightSpace fuel s = []
      ∨ IsSpace (DecodeLastRuneInString (trimRightSpace fuel s)).1 = false := by
  induction fuel generalizing s with
  | zero =>
    left
    have : s = [] := List.length_eq_zero.mp (by omega)
    rw [this]; rfl
  | succ n ih =>
    unfold trimRightSpace
    simp only
    split_ifs with h0 h1
    · left
      by_contra hne
      have := (DecodeLastRuneInString_size_bounds s hne).1
      omega
    · apply ih
      have hne : s ≠ [] := by
        intro hs
        rw [hs] at h0
        exact h0 rfl
      have := (DecodeLastRuneInString_size_bounds s hne).1
      rw [List.length_take]
      omega
    · right
      simpa using h1

/-- The result of `strings.TrimSpace` is empty, or neither its first nor its last rune is a
space. -/
theorem TrimSpace_ends (s : GoString) :
    TrimSpace s = [] ∨
      (IsSpace (DecodeRuneInString (TrimSpace s)).1 = false
        ∧ IsSpace (DecodeLastRuneInString (TrimSpace s)).1 = false) := by
  by_cases hT : TrimSpace s = []
  · left; exact hT
  · right
    have hlast := trimRightSpace_last (trimLeftSpace s.length s).length
      (trimLeftSpace s.length s) (le_refl _)
    have hfirst := trimLeftSpace_first s.length s (le_refl _)
    obtain ⟨r, hr⟩ := trimRightSpace_beginning (trimLeftSpace s.length s).length
      (trimLeftSpace s.length s)
    have hTdef : TrimSpace s
        = trimRightSpace (trimLeftSpace s.length s).length (trimLeftSpace s.length s) := rfl
    rw [← hTdef] at hlast hr
    constructor
    · have hne : trimLeftSpace s.length s ≠ [] := by
        intro h0
        rw [h0] at hr
        have : TrimSpace s = [] := (List.append_eq_nil.mp hr.symm).1
        exact hT this
      have h1 : IsSpace (DecodeRuneInString (trimLeftSpace s.length s)).1 = false := by
        rcases hfirst with h | h
        · exact absurd h hne
        · exact h
      rcases DecodeRuneInString_append (TrimSpace s) r hT with h | h
      · rw [h, ← hr]; exact h1
      · rw [h]; exact IsSpace_RuneError
    · rcases hlast with h | h
      · exact absurd h hT
      · exact h

theorem foldl_append_eq_flatten {α : Type} (f : α → GoString) (l : List α) (init : GoString) :
    l.foldl (fun buf word => buf ++ f word) init = init ++ (l.map f).flatten := by
  induction l generalizing init with
  | nil => simp
  | cons a l ih => simp [ih]

theorem ConvertRichText_eq (t : List RichText) :
    ConvertRichText t = TrimSpace ((t.map ConvertRich).flatten) := by
  unfold ConvertRichText
  simp only [foldl_append_eq_flatten, List.nil_append]

/-! ## `wordWrap` returns -/

theorem emitWord_i (lineWidth : Int) (pfx : GoString) (st : WrapState) (word : GoString) :
    (emitWord lineWidth pfx st word).i = st.i := by
  unfold emitWord
  split_ifs <;> rfl

theorem emitWord_j (lineWidth : Int) (pfx : GoString) (st : WrapState) (word : GoString) :
    (emitWord lineWidth pfx st word).j = st.j := by
  unfold emitWord
  split_ifs <;> rfl

theorem slice_ok (s : GoString) (lo hi : Nat) (h1 : lo ≤ hi) (h2 : hi ≤ s.length) :
    slice s lo hi = .ok ((s.take hi).drop lo) := by
  unfold slice
  rw [if_pos ⟨h1, h2⟩]

/-- One pass of the loop, with `j ≤ i ≤ len(text)`: at the end of the text the loop ends, and
before it the pass moves `i` forward by at least one byte and keeps `j ≤ i ≤ len(text)`. -/
theorem wordWrapStep_progress (text : GoString) (lineWidth : Int) (pfx : GoString)
    (st : WrapState) (hi : st.i ≤ text.length) (hj : st.j ≤ st.i) :
    (st.i = text.length ∧ ∃ out, wordWrapStep text lineWidth pfx st = .done out)
      ∨ (∃ st1, wordWrapStep text lineWidth pfx st = .next st1 ∧ st.i < st1.i
          ∧ st1.i ≤ text.length ∧ st1.j ≤ st1.i) := by
  unfold wordWrapStep
  rw [slice_ok text st.i text.length hi (le_refl _), slice_ok text st.j st.i hj hi]
  simp only [List.take_length]
  by_cases hend : text.drop st.i = []
  · left
    have hlen : st.i = text.length := by
      have := List.drop_eq_nil_iff.mp hend
      omega
    refine ⟨hlen, ?_⟩
    rw [hend]
    simp only [DecodeRuneInString_nil]
    have hsp : IsSpace 32 = true := by decide
    simp only [true_and, if_true, hsp]
    split_ifs <;> exact ⟨_, rfl⟩
  · right
    have hb := DecodeRuneInString_size_bounds _ hend
    have hsz : (DecodeRuneInString (text.drop st.i)).2 ≠ 0 := by omega
    have hle : st.i + (DecodeRuneInString (text.drop st.i)).2 ≤ text.length := by
      have := hb.2
      rw [List.length_drop] at this
      omega
    simp only [hsz, false_and, if_false]
    split_ifs
    · refine ⟨_, rfl, ?_, ?_, ?_⟩
      · simp only [emitWord_i]; omega
      · simp only [emitWord_i]; omega
      · simp only [emitWord_i, emitWord_j]; omega
    · refine ⟨_, rfl, ?_, ?_, ?_⟩ <;> simp only <;> omega
    · refine ⟨_, rfl, ?_, ?_, ?_⟩ <;> simp only <;> omega
    · refine ⟨_, rfl, ?_, ?_, ?_⟩ <;> simp only <;> omega

theorem wordWrapLoop_returns (text : GoString) (lineWidth : Int) (pfx : GoString) (fuel : Nat)
    (st : WrapState) (hi : st.i ≤ text.length) (hj : st.j ≤ st.i)
    (hfuel : text.length - st.i < fuel) :
    ∃ out, wordWrapLoop text lineWidth pfx fuel st = .ok out := by
  induction fuel generalizing st with
  | zero => omega
  | succ n ih =>
    unfold wordWrapLoop
    rcases wordWrapStep_progress text lineWidth pfx st hi hj with ⟨_, out, h⟩ | ⟨st1, h, h1, h2, h3⟩
    · rw [h]
      exact ⟨out, rfl⟩
    · rw [h]
      exact ih st1 h2 h3 (by omega)

/-- For a width of at least one, `wordWrap` returns a string: no panic, and the loop ends. -/
theorem wordWrap_returns (text : GoString) (lineWidth : Int) (pfx : GoString)
    (hW : 1 ≤ lineWidth) : ∃ out, wordWrap text lineWidth pfx = .ok out := by
  unfold wordWrap
  have h0 : lineWidth ≠ 0 := by omega
  have hcap : ¬ ((text.length : Int) + Int.tdiv (2 * (text.length : Int)) lineWidth < 0) := by
    have : 0 ≤ Int.tdiv (2 * (text.length : Int)) lineWidth :=
      Int.tdiv_nonneg (by omega) (by omega)
    omega
  rw [if_neg h0, if_neg hcap]
  exact wordWrapLoop_returns text lineWidth pfx _ _ (Nat.zero_le _) (le_refl _)
    (by simp [wordWrapInit])

/-! ## Lemmas on `GenerateContent` -/

theorem ConvertRichText_ne_newline (t : List RichText) : ConvertRichText t ≠ str "\n" := by
  intro h
  rw [ConvertRichText_eq] at h
  rcases TrimSpace_ends ((t.map ConvertRich).flatten) with h0 | ⟨h1, _⟩
  · rw [h0] at h
    exact absurd h (by decide)
  · rw [h] at h1
    exact absurd h1 (by decide)

/-- An emission of a format that does not end its line itself: the joined prefixes, the
formatted text and the end of the line. -/
theorem fprintf_line (w : GoString) (prefixes : List GoString) (format : GoString)
    (args : List GoString) (h : format.getLast? ≠ some 0x0A) :
    fprintf w prefixes format args
      = w ++ joinPrefixes prefixes ++ Sprintf format args ++ [0x0A] := by
  unfold fprintf
  rw [if_neg h]

theorem Sprintf_bullet (x : GoString) : Sprintf (str "- %s") [x] = str "- " ++ x := by
  have h : str "- %s" = str "- " ++ str "%s" ++ [] := by decide
  rw [h, Sprintf_wrap _ _ _ (by decide) (by decide), List.append_nil]

theorem Sprintln_one (x : GoString) : Sprintln [x] = x ++ [0x0A] := by
  simp [Sprintln, List.intercalate]

/-- Two childless bullets and a childless paragraph with text: what `GenerateContent` writes,
from the three results of `wordWrap`. -/
theorem GenerateContent_bullets_paragraph (world : World) (config : BlogConfig)
    (ra rb rp : List RichText) (prefixes : List GoString) (out : Output) (wa wb wp : GoString)
    (hp : ConvertRichText rp ≠ [])
    (hwa : wordWrap (ConvertRichText ra) 80 (prefixes ++ [str "  "]).flatten = .ok wa)
    (hwb : wordWrap (ConvertRichText rb) 80 (prefixes ++ [str "  "]).flatten = .ok wb)
    (hwp : wordWrap (ConvertRichText rp) 80 (str "") = .ok wp) :
    GenerateContent world config out
        [Block.BulletedListItem ra [], Block.BulletedListItem rb [], Block.Paragraph rp []]
        prefixes
      = .ok { out with
          w := out.w ++ (joinPrefixes prefixes ++ str "- " ++ wa ++ [0x0A])
            ++ (joinPrefixes prefixes ++ str "- " ++ wb ++ [0x0A])
            ++ [0x0A]
            ++ (joinPrefixes prefixes ++ wp ++ [0x0A]) } := by
  have hne : ConvertRichText rp ≠ str "\n" := ConvertRichText_ne_newline rp
  have hfmt : (str "- %s").getLast? ≠ some 0x0A := by decide
  have hp1 : ConvertRichText rp ≠ str "" := hp
  have hty : (str "paragraph" != BlockTypeBulletedListItem) = true := by decide
  have hty2 : (BlockTypeBulletedListItem != BlockTypeBulletedListItem) = false := by decide
  simp only [GenerateContent, generateLoop, generateBlock, Block.GetType, hwa, hwb, hwp, hty, hty2,
    fprintf_line _ _ _ _ hfmt, fprintln, Sprintf_bullet, Sprintln_one]
  simp [hp1, hne]

/-! ## `wordWrap` wraps the words of the text one after the other -/

theorem wrapWord_emitWord (lineWidth : Int) (pfx : GoString) (st : WrapState)
    (word : GoString) :
    wrapWord lineWidth pfx (st.wrap, st.eoLine) (word, st.i)
      = ((emitWord lineWidth pfx st word).wrap, (emitWord lineWidth pfx st word).eoLine) := by
  unfold wrapWord emitWord
  split_ifs <;> rfl

/-- The pass of the loop at offset `i`, with `j ≤ i ≤ len(text)`, case by case. -/
theorem wordWrapStep_eq (text : GoString) (lineWidth : Int) (pfx : GoString)
    (st : WrapState) (hi : st.i ≤ text.length) (hj : st.j ≤ st.i) :
    wordWrapStep text lineWidth pfx st =
      if text.drop st.i = [] then
        .done (if st.inWord then (emitWord lineWidth pfx st ((text.take st.i).drop st.j)).wrap
          else st.wrap)
      else if IsSpace (DecodeRuneInString (text.drop st.i)).1 then
        if st.inWord then
          .next ⟨(emitWord lineWidth pfx st ((text.take st.i).drop st.j)).wrap,
            (emitWord lineWidth pfx st ((text.take st.i).drop st.j)).eoLine, false,
            st.i + (DecodeRuneInString (text.drop st.i)).2, st.j⟩
        else
          .next ⟨st.wrap, st.eoLine, false, st.i + (DecodeRuneInString (text.drop st.i)).2, st.j⟩
      else if st.inWord then
        .next ⟨st.wrap, st.eoLine, true, st.i + (DecodeRuneInString (text.drop st.i)).2, st.j⟩
      else
        .next ⟨st.wrap, st.eoLine, true, st.i + (DecodeRuneInString (text.drop st.i)).2, st.i⟩ := by
  unfold wordWrapStep
  rw [slice_ok text st.i text.length hi (le_refl _), slice_ok text st.j st.i hj hi]
  simp only [List.take_length]
  by_cases hend : text.drop st.i = []
  · rw [if_pos hend, hend]
    simp only [DecodeRuneInString_nil]
    have hsp : IsSpace 32 = true := by decide
    simp only [true_and, if_true, hsp]
    split_ifs <;> rfl
  · rw [if_neg hend]
    have hb := DecodeRuneInString_size_bounds _ hend
    have hsz : (DecodeRuneInString (text.drop st.i)).2 ≠ 0 := by omega
    simp only [hsz, false_and, if_false]
    cases hsp : IsSpace (DecodeRuneInString (text.drop st.i)).1 <;>
      cases hw : st.inWord <;>
      simp [emitWord_i, emitWord_j, hw]

theorem take_drop_extend (text : GoString) (i j n : Nat) (hi : i ≤ text.length)
    (hj : j ≤ i) :
    (text.take (i + n)).drop j = (text.take i).drop j ++ (text.drop i).take n := by
  rw [List.take_add, List.drop_append_of_le_length]
  rw [List.length_take]
  omega

theorem wrapWords_cons (lineWidth : Int) (pfx : GoString) (we : GoString × Nat)
    (ws : List (GoString × Nat)) (acc : GoString × Int) :
    wrapWords lineWidth pfx (we :: ws) acc
      = wrapWords lineWidth pfx ws (wrapWord lineWidth pfx acc we) := rfl

/-- The loop from a state with `j ≤ i ≤ len(text)` (and `j < i` inside a word) returns what
wrapping the remaining words one after the other gives; the word in progress is
`text[j:i]`. -/
theorem wordWrapLoop_eq_wrapWords (text : GoString) (lineWidth : Int) (pfx : GoString)
    (fuel : Nat) (st : WrapState) (hi : st.i ≤ text.length) (hj : st.j ≤ st.i)
    (hw : st.inWord = true → st.j < st.i) (hfuel : text.length - st.i ≤ fuel) :
    wordWrapLoop text lineWidth pfx (fuel + 1) st
      = .ok (wrapWords lineWidth pfx
          (wordEndsLoop fuel (text.drop st.i) st.i
            (if st.inWord then (text.take st.i).drop st.j else []))
          (st.wrap, st.eoLine)).1 := by
  induction fuel generalizing st with
  | zero =>
    have hend : text.drop st.i = [] := List.drop_eq_nil_iff.mpr (by omega)
    unfold wordWrapLoop
    rw [wordWrapStep_eq text lineWidth pfx st hi hj, if_pos hend]
    simp only [wordEndsLoop]
    cases hin : st.inWord
    · simp [wrapWords]
    · have hlt := hw hin
      have hne : (text.take st.i).drop st.j ≠ [] := by
        intro h0
        have := congrArg List.length h0
        simp [List.length_drop, List.length_take] at this
        omega
      simp only [if_true, if_neg hne, wrapWords, List.foldl_cons, List.foldl_nil,
        wrapWord_emitWord]
  | succ n ih =>
    unfold wordWrapLoop
    rw [wordWrapStep_eq text lineWidth pfx st hi hj]
    by_cases hend : text.drop st.i = []
    · rw [if_pos hend, hend]
      simp only [wordEndsLoop, DecodeRuneInString_nil, if_true]
      cases hin : st.inWord
      · simp [wrapWords]
      · have hlt := hw hin
        have hne : (text.take st.i).drop st.j ≠ [] := by
          intro h0
          have := congrArg List.length h0
          simp [List.length_drop, List.length_take] at this
          omega
        simp only [if_true, if_neg hne, wrapWords, List.foldl_cons, List.foldl_nil,
          wrapWord_emitWord]
    · rw [if_neg hend]
      have hb := DecodeRuneInString_size_bounds _ hend
      have hsz : (DecodeRuneInString (text.drop st.i)).2 ≠ 0 := by omega
      have hle : st.i + (DecodeRuneInString (text.drop st.i)).2 ≤ text.length := by
        have := hb.2
        rw [List.length_drop] at this
        omega
      rw [wordEndsLoop]
      simp only [if_neg hsz]
      cases hsp : IsSpace (DecodeRuneInString (text.drop st.i)).1 <;> cases hin : st.inWord
      · -- a word starts
        simp only [if_false, Bool.false_eq_true]
        rw [ih _ hle (by simp) (by intro _; simp; omega) (by simp; omega)]
        simp only [if_true, List.drop_drop, List.nil_append]
        have h := take_drop_extend text st.i st.i (DecodeRuneInString (text.drop st.i)).2 hi
          (le_refl _)
        have h0 : (text.take st.i).drop st.i = [] := List.drop_eq_nil_iff.mpr (by simp)
        rw [h, h0, List.nil_append]
      · -- a word goes on
        simp only [if_false, Bool.false_eq_true, if_true]
        rw [ih _ hle (by simp; omega) (by intro _; simp; have := hw hin; omega) (by simp; omega)]
        simp only [if_true, List.drop_drop]
        rw [take_drop_extend text st.i st.j _ hi hj]
      · -- white space outside a word
        simp only [if_true, if_false, Bool.false_eq_true]
        rw [ih _ hle (by simp; omega) (by intro h; simp at h) (by simp; omega)]
        simp only [if_false, Bool.false_eq_true, List.drop_drop]
      · -- white space ends a word
        have hlt := hw hin
        have hne : (text.take st.i).drop st.j ≠ [] := by
          intro h0
          have := congrArg List.length h0
          simp [List.length_drop, List.length_take] at this
          omega
        simp only [if_true, if_neg hne]
        rw [ih _ hle (by simp; omega) (by intro h; simp at h) (by simp; omega)]
        simp only [if_false, Bool.false_eq_true, List.drop_drop, wrapWords_cons,
          wrapWord_emitWord]

/-- For a width of at least one, `wordWrap` returns its words wrapped one after the other,
from the empty output and the first end-of-line column `lineWidth - len(prefix)`. -/
theorem wordWrap_eq_wrapWords (text : GoString) (lineWidth : Int) (pfx : GoString)
    (hW : 1 ≤ lineWidth) :
    wordWrap text lineWidth pfx
      = .ok (wrapWords lineWidth pfx (wordEnds text)
          ([], lineWidth - (pfx.length : Int))).1 := by
  unfold wordWrap
  have h0 : lineWidth ≠ 0 := by omega
  have hcap : ¬ ((text.length : Int) + Int.tdiv (2 * (text.length : Int)) lineWidth < 0) := by
    have : 0 ≤ Int.tdiv (2 * (text.length : Int)) lineWidth :=
      Int.tdiv_nonneg (by omega) (by omega)
    omega
  rw [if_neg h0, if_neg hcap,
    wordWrapLoop_eq_wrapWords text lineWidth pfx text.length (wordWrapInit lineWidth pfx)
      (Nat.zero_le _) (le_refl _) (by intro h; simp [wordWrapInit] at h) (by simp [wordWrapInit])]
  simp [wordWrapInit, wordEnds]

/-! ## Lines of an output -/

theorem splitLines_ne_nil (s : GoString) : splitLines s ≠ [] := by
  induction s with
  | nil => simp [splitLines]
  | cons c rest ih =>
    unfold splitLines
    split_ifs
    · simp
    · split <;> simp

theorem splitLines_no_newline (b : GoString) (hb : (0x0A : UInt8) ∉ b) : splitLines b = [b] := by
  induction b with
  | nil => rfl
  | cons c rest ih =>
    have hc : c ≠ 0x0A := fun h => hb (by simp [h])
    have hr : (0x0A : UInt8) ∉ rest := fun h => hb (List.mem_cons_of_mem _ h)
    unfold splitLines
    rw [if_neg hc, ih hr]

theorem appendToLast_ne_nil (ls : List GoString) (b : GoString) : appendToLast ls b ≠ [] := by
  match ls with
  | [] => simp [appendToLast]
  | [l] => simp [appendToLast]
  | l :: l1 :: ls => simp [appendToLast]

theorem appendToLast_cons (l : GoString) (ls : List GoString) (b : GoString) (h : ls ≠ []) :
    appendToLast (l :: ls) b = l :: appendToLast ls b := by
  match ls with
  | [] => exact absurd rfl h
  | l1 :: ls => rfl

/-- Appending text without newline to an output appends it to the last line. -/
theorem splitLines_append (a b : GoString) (hb : (0x0A : UInt8) ∉ b) :
    splitLines (a ++ b) = appendToLast (splitLines a) b := by
  induction a with
  | nil => simp [splitLines_no_newline b hb, splitLines, appendToLast]
  | cons c rest ih =>
    rw [List.cons_append]
    unfold splitLines
    split_ifs with hc
    · rw [ih, appendToLast_cons _ _ _ (splitLines_ne_nil rest)]
    · rw [ih]
      match h : splitLines rest with
      | [] => exact absurd h (splitLines_ne_nil rest)
      | [l] => simp [appendToLast]
      | l :: l1 :: ls => simp [appendToLast]

/-- Appending a newline and text without newline to an output adds that text as a line. -/
theorem splitLines_append_line (a b : GoString) (hb : (0x0A : UInt8) ∉ b) :
    splitLines (a ++ 0x0A :: b) = splitLines a ++ [b] := by
  induction a with
  | nil => simp [splitLines, splitLines_no_newline b hb]
  | cons c rest ih =>
    rw [List.cons_append]
    unfold splitLines
    split_ifs with hc
    · rw [ih, List.cons_append]
    · rw [ih]
      match h : splitLines rest with
      | [] => exact absurd h (splitLines_ne_nil rest)
      | l :: ls => simp

theorem intercalate_cons_of_ne_nil (sep l : GoString) (ls : List GoString) (h : ls ≠ []) :
    sep.intercalate (l :: ls) = l ++ sep ++ sep.intercalate ls := by
  cases ls with
  | nil => exact absurd rfl h
  | cons l1 ls => simp [List.intercalate, List.intersperse]

theorem intercalate_appendToLast (sep : GoString) (ls : List GoString) (b : GoString)
    (h : ls ≠ []) :
    sep.intercalate (appendToLast ls b) = sep.intercalate ls ++ b := by
  induction ls with
  | nil => exact absurd rfl h
  | cons l ls ih =>
    cases ls with
    | nil => simp [appendToLast, List.intercalate]
    | cons l1 ls =>
      have ih1 := ih (by simp)
      rw [appendToLast_cons _ _ _ (by simp),
        intercalate_cons_of_ne_nil sep l _ (appendToLast_ne_nil _ _), ih1,
        intercalate_cons_of_ne_nil sep l (l1 :: ls) (by simp)]
      simp

theorem intercalate_snoc (sep : GoString) (ls : List GoString) (b : GoString) (h : ls ≠ []) :
    sep.intercalate (ls ++ [b]) = sep.intercalate ls ++ sep ++ b := by
  induction ls with
  | nil => exact absurd rfl h
  | cons l ls ih =>
    cases ls with
    | nil => simp [List.intercalate]
    | cons l1 ls =>
      have ih1 := ih (by simp)
      rw [List.cons_append, intercalate_cons_of_ne_nil sep l ((l1 :: ls) ++ [b]) (by simp),
        ih1, intercalate_cons_of_ne_nil sep l (l1 :: ls) (by simp)]
      simp

/-! ## The words of a text -/

theorem wordEndsLoop_nonempty (fuel : Nat) (s : GoString) (i : Nat) (cur : GoString) :
    ∀ we ∈ wordEndsLoop fuel s i cur, we.1 ≠ [] := by
  induction fuel generalizing s i cur with
  | zero =>
    intro we hwe
    unfold wordEndsLoop at hwe
    split_ifs at hwe with h
    · simp at hwe
    · simp at hwe
      rw [hwe]
      exact h
  | succ n ih =>
    intro we hwe
    unfold wordEndsLoop at hwe
    simp only at hwe
    split_ifs at hwe with h0 h1 h2 h3
    · simp at hwe
    · simp at hwe
      rw [hwe]
      exact h1
    · exact ih _ _ _ we hwe
    · rcases List.mem_cons.mp hwe with h | h
      · rw [h]
        exact h3
      · exact ih _ _ _ we h
    · exact ih _ _ _ we hwe

theorem isAccepted_ne_sep (s0 s1 c : UInt8) (hc : c = 0x0A ∨ c = 0x20)
    (h : isAccepted s0 s1 = true) : s1 ≠ c := by
  intro h0
  rw [h0] at h
  revert h
  unfold isAccepted acceptLo acceptHi
  rcases hc with rfl | rfl <;> split_ifs <;> decide

theorem isContinuation_ne_sep (b c : UInt8) (hc : c = 0x0A ∨ c = 0x20)
    (h : isContinuation b = true) : b ≠ c := by
  intro h0
  rw [h0] at h
  rcases hc with rfl | rfl <;> exact absurd h (by decide)

theorem decodeRune2_take_no_sep (s0 : UInt8) (rest : GoString) (c : UInt8)
    (hc : c = 0x0A ∨ c = 0x20) (hs0 : s0 ≠ c) :
    c ∉ (s0 :: rest).take (decodeRune2 s0 rest).2 := by
  unfold decodeRune2
  split
  · rename_i s1 t
    split_ifs with ha
    · have hs1 := isAccepted_ne_sep s0 s1 c hc ha
      simp [Ne.symm hs0, Ne.symm hs1]
    · simp [Ne.symm hs0]
  · simp [Ne.symm hs0]

theorem decodeRune3_take_no_sep (s0 : UInt8) (rest : GoString) (c : UInt8)
    (hc : c = 0x0A ∨ c = 0x20) (hs0 : s0 ≠ c) :
    c ∉ (s0 :: rest).take (decodeRune3 s0 rest).2 := by
  unfold decodeRune3
  split
  · rename_i s1 s2 t
    split_ifs with ha
    · simp only [Bool.and_eq_true] at ha
      have hs1 := isAccepted_ne_sep s0 s1 c hc ha.1
      have hs2 := isContinuation_ne_sep s2 c hc ha.2
      simp [Ne.symm hs0, Ne.symm hs1, Ne.symm hs2]
    · simp [Ne.symm hs0]
  · simp [Ne.symm hs0]

theorem decodeRune4_take_no_sep (s0 : UInt8) (rest : GoString) (c : UInt8)
    (hc : c = 0x0A ∨ c = 0x20) (hs0 : s0 ≠ c) :
    c ∉ (s0 :: rest).take (decodeRune4 s0 rest).2 := by
  unfold decodeRune4
  split
  · rename_i s1 s2 s3 t
    split_ifs with ha
    · simp only [Bool.and_eq_true] at ha
      have hs1 := isAccepted_ne_sep s0 s1 c hc ha.1.1
      have hs2 := isContinuation_ne_sep s2 c hc ha.1.2
      have hs3 := isContinuation_ne_sep s3 c hc ha.2
      simp [Ne.symm hs0, Ne.symm hs1, Ne.symm hs2, Ne.symm hs3]
    · simp [Ne.symm hs0]
  · simp [Ne.symm hs0]

/-- The bytes of a rune that is not a space hold neither a newline nor a space byte. -/
theorem DecodeRuneInString_take_no_sep (s : GoString) (c : UInt8)
    (hc : c = 0x0A ∨ c = 0x20) (h : IsSpace (DecodeRuneInString s).1 = false) :
    c ∉ s.take (DecodeRuneInString s).2 := by
  cases s with
  | nil => simp
  | cons s0 rest =>
    by_cases hs0 : s0 = c
    · rw [hs0] at h
      have hd : IsSpace (DecodeRuneInString (c :: rest)).1 = true := by
        rcases hc with rfl | rfl <;> rfl
      rw [hd] at h
      exact absurd h (by simp)
    · have hascii : ∀ r : Rune, c ∉ (s0 :: rest).take (r, 1).2 := by
        intro r
        simp [Ne.symm hs0]
      simp only [DecodeRuneInString]
      split_ifs
      · exact hascii _
      · exact hascii _
      · exact decodeRune2_take_no_sep s0 rest c hc hs0
      · exact decodeRune3_take_no_sep s0 rest c hc hs0
      · exact decodeRune4_take_no_sep s0 rest c hc hs0
      · exact hascii _

theorem wordEndsLoop_no_sep (fuel : Nat) (s : GoString) (i : Nat) (cur : GoString) (c : UInt8)
    (hc : c = 0x0A ∨ c = 0x20) (hcur : c ∉ cur) :
    ∀ we ∈ wordEndsLoop fuel s i cur, c ∉ we.1 := by
  induction fuel generalizing s i cur with
  | zero =>
    intro we hwe
    unfold wordEndsLoop at hwe
    split_ifs at hwe with h
    · simp at hwe
    · simp at hwe
      rw [hwe]
      exact hcur
  | succ n ih =>
    intro we hwe
    unfold wordEndsLoop at hwe
    simp only at hwe
    split_ifs at hwe with h0 h1 h2 h3
    · simp at hwe
    · simp at hwe
      rw [hwe]
      exact hcur
    · exact ih _ _ _ (by simp) we hwe
    · rcases List.mem_cons.mp hwe with h | h
      · rw [h]
        exact hcur
      · exact ih _ _ _ (by simp) we h
    · refine ih _ _ _ ?_ we hwe
      intro hmem
      rcases List.mem_append.mp hmem with h | h
      · exact hcur h
      · exact DecodeRuneInString_take_no_sep s c hc (by simpa using h2) h

/-- Every word starts after the end of the word before it and at least one byte of white
space: `p` is the end of the word before, `g` the gap owed (none before the first word). -/
theorem wordEndsLoop_spaced (fuel : Nat) (s : GoString) (i : Nat) (cur : GoString)
    (p g : Nat) (h : p + g + cur.length ≤ i) :
    wordsSpaced p g (wordEndsLoop fuel s i cur) := by
  induction fuel generalizing s i cur p g with
  | zero =>
    unfold wordEndsLoop
    split_ifs
    · trivial
    · exact ⟨h, trivial⟩
  | succ n ih =>
    unfold wordEndsLoop
    simp only
    split_ifs with h0 h1 h2 h3
    · trivial
    · exact ⟨h, trivial⟩
    · exact ih _ _ _ _ _ (by rw [h3] at h; simp only [List.length_nil] at h ⊢; omega)
    · refine ⟨h, ?_⟩
      exact ih _ _ _ _ _ (by simp only [List.length_nil]; omega)
    · have hsz := DecodeRuneInString_size_le s
      have hlen : (s.take (DecodeRuneInString s).2).length = (DecodeRuneInString s).2 := by
        rw [List.length_take]
        omega
      exact ih _ _ _ _ _ (by rw [List.length_append, hlen]; omega)

theorem appendToLast_snoc (lines : List GoString) (last b : GoString) :
    appendToLast (lines ++ [last]) b = lines ++ [last ++ b] := by
  induction lines with
  | nil => rfl
  | cons l ls ih =>
    rw [List.cons_append, appendToLast_cons _ _ _ (by simp), ih, List.cons_append]

/-- Without a prefix, wrapping words that lie one after the other in the text keeps every
line that holds a space within the width: the output never gets ahead of the input. -/
theorem wrapWords_lines_fit (lineWidth : Int) (ws : List (GoString × Nat))
    (hnl : ∀ we ∈ ws, (0x0A : UInt8) ∉ we.1) (hsp : ∀ we ∈ ws, (0x20 : UInt8) ∉ we.1)
    (hshort : ∀ we ∈ ws, (we.1.length : Int) ≤ lineWidth)
    (acc : GoString × Int) (p g : Nat) (lines : List GoString) (last : GoString)
    (hspaced : wordsSpaced p g ws) (hg : acc.1 ≠ [] → g = 1) (ha : acc.1.length ≤ p)
    (hl : last.length ≤ acc.1.length) (hsplit : splitLines acc.1 = lines ++ [last])
    (heo : acc.2 = (acc.1.length : Int) - (last.length : Int) + lineWidth)
    (hfit : ∀ l ∈ lines ++ [last], (0x20 : UInt8) ∈ l → (l.length : Int) ≤ lineWidth) :
    ∀ l ∈ splitLines (wrapWords lineWidth [] ws acc).1,
      (0x20 : UInt8) ∈ l → (l.length : Int) ≤ lineWidth := by
  induction ws generalizing acc p g lines last with
  | nil =>
    simp only [wrapWords, List.foldl_nil]
    rw [hsplit]
    exact hfit
  | cons we ws ih =>
    obtain ⟨hgap, hrest⟩ := hspaced
    have hwnl : (0x0A : UInt8) ∉ we.1 := hnl we (List.mem_cons_self _ _)
    have hwsp : (0x20 : UInt8) ∉ we.1 := hsp we (List.mem_cons_self _ _)
    have hwshort : (we.1.length : Int) ≤ lineWidth := hshort we (List.mem_cons_self _ _)
    have hnl1 : ∀ x ∈ ws, (0x0A : UInt8) ∉ x.1 := fun x hx => hnl x (List.mem_cons_of_mem _ hx)
    have hsp1 : ∀ x ∈ ws, (0x20 : UInt8) ∉ x.1 := fun x hx => hsp x (List.mem_cons_of_mem _ hx)
    have hshort1 : ∀ x ∈ ws, (x.1.length : Int) ≤ lineWidth :=
      fun x hx => hshort x (List.mem_cons_of_mem _ hx)
    rw [wrapWords_cons]
    by_cases h1 : (we.2 : Int) > acc.2
    · -- a new line
      have hstep : wrapWord lineWidth [] acc we
          = (acc.1 ++ 0x0A :: we.1, ((acc.1.length : Int) + 1) + lineWidth) := by
        unfold wrapWord
        rw [if_pos h1]
        simp
      rw [hstep]
      have hlen : (acc.1 ++ 0x0A :: we.1).length = acc.1.length + 1 + we.1.length := by
        simp only [List.length_append, List.length_cons]
        omega
      refine ih hnl1 hsp1 hshort1 _ we.2 1 (lines ++ [last]) we.1 hrest (fun _ => rfl) ?_ ?_ ?_
        ?_ ?_
      · show (acc.1 ++ 0x0A :: we.1).length ≤ we.2
        rw [hlen]
        by_cases hacc : acc.1 = []
        · have h0 : acc.1.length = 0 := by rw [hacc]; rfl
          have h2 : last.length = 0 := by omega
          rw [h0, h2] at heo
          omega
        · have := hg hacc
          omega
      · show we.1.length ≤ (acc.1 ++ 0x0A :: we.1).length
        rw [hlen]
        omega
      · show splitLines (acc.1 ++ 0x0A :: we.1) = lines ++ [last] ++ [we.1]
        rw [splitLines_append_line _ _ hwnl, hsplit]
      · show (acc.1.length : Int) + 1 + lineWidth
          = ((acc.1 ++ 0x0A :: we.1).length : Int) - (we.1.length : Int) + lineWidth
        rw [hlen]
        push_cast
        omega
      · intro l hl0 hmem
        rcases List.mem_append.mp hl0 with h | h
        · exact hfit l h hmem
        · simp only [List.mem_singleton] at h
          rw [h] at hmem
          exact absurd hmem hwsp
    · by_cases h2 : acc.1.length > 0
      · -- the same line
        have hstep : wrapWord lineWidth [] acc we = (acc.1 ++ 0x20 :: we.1, acc.2) := by
          unfold wrapWord
          rw [if_neg h1, if_pos h2]
          simp
        rw [hstep]
        have hlen : (acc.1 ++ 0x20 :: we.1).length = acc.1.length + 1 + we.1.length := by
          simp only [List.length_append, List.length_cons]
          omega
        have hacc : acc.1 ≠ [] := List.length_pos.mp h2
        have hg1 := hg hacc
        have hline : (0x0A : UInt8) ∉ (0x20 : UInt8) :: we.1 := by
          intro hm
          rcases List.mem_cons.mp hm with h | h
          · exact absurd h (by decide)
          · exact hwnl h
        refine ih hnl1 hsp1 hshort1 _ we.2 1 lines (last ++ 0x20 :: we.1) hrest (fun _ => rfl)
          ?_ ?_ ?_ ?_ ?_
        · show (acc.1 ++ 0x20 :: we.1).length ≤ we.2
          rw [hlen]
          omega
        · show (last ++ 0x20 :: we.1).length ≤ (acc.1 ++ 0x20 :: we.1).length
          simp only [List.length_append, List.length_cons]
          omega
        · show splitLines (acc.1 ++ 0x20 :: we.1) = lines ++ [last ++ 0x20 :: we.1]
          rw [splitLines_append _ _ hline, hsplit, appendToLast_snoc]
        · show acc.2 = ((acc.1 ++ 0x20 :: we.1).length : Int)
            - ((last ++ 0x20 :: we.1).length : Int) + lineWidth
          rw [hlen, heo]
          simp only [List.length_append, List.length_cons]
          push_cast
          omega
        · intro l hl0 hmem
          rcases List.mem_append.mp hl0 with h | h
          · exact hfit l (List.mem_append_left _ h) hmem
          · simp only [List.mem_singleton] at h
            rw [h]
            simp only [List.length_append, List.length_cons]
            push_cast
            omega
      · -- the first word
        have h0 : acc.1 = [] := List.length_eq_zero.mp (by omega)
        have hstep : wrapWord lineWidth [] acc we = (we.1, acc.2) := by
          unfold wrapWord
          rw [if_neg h1, if_neg h2, h0]
          simp
        rw [hstep]
        have hl0 : last.length = 0 := by
          rw [h0] at hl
          simpa using hl
        refine ih hnl1 hsp1 hshort1 _ we.2 1 [] we.1 hrest (fun _ => rfl) ?_ (le_refl _) ?_ ?_
          ?_
        · show we.1.length ≤ we.2
          omega
        · show splitLines we.1 = [] ++ [we.1]
          rw [splitLines_no_newline _ hwnl]
          rfl
        · show acc.2 = (we.1.length : Int) - (we.1.length : Int) + lineWidth
          rw [heo, h0, hl0]
          simp
        · intro l hmem0 hmem
          simp only [List.nil_append, List.mem_singleton] at hmem0
          rw [hmem0] at hmem
          exact absurd hmem hwsp

/-! ## What `strings.TrimSpace` removes -/

theorem decodeRune2_space_append (s0 : UInt8) (t u : GoString)
    (h : IsSpace (decodeRune2 s0 t).1 = true) : decodeRune2 s0 (t ++ u) = decodeRune2 s0 t := by
  rcases t with _ | ⟨a, t⟩
  · exact absurd (show IsSpace RuneError = true from h) (by decide)
  · rfl

theorem decodeRune3_space_append (s0 : UInt8) (t u : GoString)
    (h : IsSpace (decodeRune3 s0 t).1 = true) : decodeRune3 s0 (t ++ u) = decodeRune3 s0 t := by
  rcases t with _ | ⟨a, _ | ⟨b, t⟩⟩
  · exact absurd (show IsSpace RuneError = true from h) (by decide)
  · exact absurd (show IsSpace RuneError = true from h) (by decide)
  · rfl

theorem decodeRune4_space_append (s0 : UInt8) (t u : GoString)
    (h : IsSpace (decodeRune4 s0 t).1 = true) : decodeRune4 s0 (t ++ u) = decodeRune4 s0 t := by
  rcases t with _ | ⟨a, _ | ⟨b, _ | ⟨c, t⟩⟩⟩
  · exact absurd (show IsSpace RuneError = true from h) (by decide)
  · exact absurd (show IsSpace RuneError = true from h) (by decide)
  · exact absurd (show IsSpace RuneError = true from h) (by decide)
  · rfl

/-- A string that starts with a space rune keeps that first rune when text is appended. -/
theorem DecodeRuneInString_space_append (t u : GoString)
    (h : IsSpace (DecodeRuneInString t).1 = true) :
    DecodeRuneInString (t ++ u) = DecodeRuneInString t := by
  cases t with
  | nil => exact absurd (show IsSpace RuneError = true from h) (by decide)
  | cons s0 rest =>
    simp only [DecodeRuneInString, List.cons_append] at h ⊢
    split_ifs at h ⊢
    · rfl
    · rfl
    · exact decodeRune2_space_append s0 rest u h
    · exact decodeRune3_space_append s0 rest u h
    · exact decodeRune4_space_append s0 rest u h
    · rfl

theorem decodeRune2_space_take (s0 : UInt8) (t : GoString)
    (h : IsSpace (decodeRune2 s0 t).1 = true) :
    decodeRune2 s0 (t.take ((decodeRune2 s0 t).2 - 1)) = decodeRune2 s0 t := by
  rcases t with _ | ⟨a, t⟩
  · exact absurd (show IsSpace RuneError = true from h) (by decide)
  · unfold decodeRune2 at h ⊢
    simp only at h ⊢
    split_ifs at h ⊢ with h1
    · simp [h1]
    · exact absurd (show IsSpace RuneError = true from h) (by decide)

theorem decodeRune3_space_take (s0 : UInt8) (t : GoString)
    (h : IsSpace (decodeRune3 s0 t).1 = true) :
    decodeRune3 s0 (t.take ((decodeRune3 s0 t).2 - 1)) = decodeRune3 s0 t := by
  rcases t with _ | ⟨a, _ | ⟨b, t⟩⟩
  · exact absurd (show IsSpace RuneError = true from h) (by decide)
  · exact absurd (show IsSpace RuneError = true from h) (by decide)
  · unfold decodeRune3 at h ⊢
    simp only at h ⊢
    split_ifs at h ⊢ with h1
    · simp [h1]
    · exact absurd (show IsSpace RuneError = true from h) (by decide)

theorem decodeRune4_space_take (s0 : UInt8) (t : GoString)
    (h : IsSpace (decodeRune4 s0 t).1 = true) :
    decodeRune4 s0 (t.take ((decodeRune4 s0 t).2 - 1)) = decodeRune4 s0 t := by
  rcases t with _ | ⟨a, _ | ⟨b, _ | ⟨c, t⟩⟩⟩
  · exact absurd (show IsSpace RuneError = true from h) (by decide)
  · exact absurd (show IsSpace RuneError = true from h) (by decide)
  · exact absurd (show IsSpace RuneError = true from h) (by decide)
  · unfold decodeRune4 at h ⊢
    simp only at h ⊢
    split_ifs at h ⊢ with h1
    · simp [h1]
    · exact absurd (show IsSpace RuneError = true from h) (by decide)

/-- The bytes of a leading space rune, taken alone, decode to that rune. -/
theorem DecodeRuneInString_space_take (s : GoString)
    (h : IsSpace (DecodeRuneInString s).1 = true) :
    DecodeRuneInString (s.take (DecodeRuneInString s).2) = DecodeRuneInString s := by
  cases s with
  | nil => exact absurd (show IsSpace RuneError = true from h) (by decide)
  | cons s0 rest =>
    have hpos := (DecodeRuneInString_size_bounds (s0 :: rest) (by simp)).1
    obtain ⟨k, hk⟩ : ∃ k, (DecodeRuneInString (s0 :: rest)).2 = k + 1 :=
      ⟨(DecodeRuneInString (s0 :: rest)).2 - 1, by omega⟩
    rw [hk, List.take_succ_cons]
    have hk1 : k = (DecodeRuneInString (s0 :: rest)).2 - 1 := by omega
    rw [hk1]
    simp only [DecodeRuneInString] at h ⊢
    split_ifs at h ⊢
    · rfl
    · rfl
    · exact decodeRune2_space_take s0 rest h
    · exact decodeRune3_space_take s0 rest h
    · exact decodeRune4_space_take s0 rest h
    · rfl

theorem trimLeftSpace_nil (fuel : Nat) : trimLeftSpace fuel [] = [] := by
  cases fuel <;> rfl

theorem trimLeftSpace_fuel (f g : Nat) (s : GoString) (hf : s.length ≤ f) (hg : s.length ≤ g) :
    trimLeftSpace f s = trimLeftSpace g s := by
  induction f generalizing s g with
  | zero =>
    have : s = [] := List.length_eq_zero.mp (by omega)
    rw [this, trimLeftSpace_nil, trimLeftSpace_nil]
  | succ n ih =>
    cases g with
    | zero =>
      have : s = [] := List.length_eq_zero.mp (by omega)
      rw [this, trimLeftSpace_nil, trimLeftSpace_nil]
    | succ m =>
      unfold trimLeftSpace
      simp only
      split_ifs with h0 h1
      · rfl
      · have hne : s ≠ [] := fun hs => h0 ((DecodeRuneInString_size_eq_zero s).mpr hs)
        have := (DecodeRuneInString_size_bounds s hne).1
        exact ih _ _ (by rw [List.length_drop]; omega) (by rw [List.length_drop]; omega)
      · rfl

theorem onlySpace_iff (s : GoString) :
    onlySpace s = true ↔ ∀ f, s.length ≤ f → trimLeftSpace f s = [] := by
  unfold onlySpace
  rw [decide_eq_true_iff]
  constructor
  · intro h f hf
    rw [trimLeftSpace_fuel f s.length s hf (le_refl _), h]
  · intro h
    exact h _ (le_refl _)

theorem onlySpace_nil : onlySpace [] = true := by decide

/-- A whole space rune followed by white space is white space. -/
theorem onlySpace_rune_append (x y : GoString) (hx : x ≠ [])
    (hsp : IsSpace (DecodeRuneInString x).1 = true) (hall : (DecodeRuneInString x).2 = x.length)
    (hy : onlySpace y = true) : onlySpace (x ++ y) = true := by
  rw [onlySpace_iff] at hy ⊢
  intro f hf
  have hpos : 0 < x.length := List.length_pos.mpr hx
  cases f with
  | zero => simp only [List.length_append] at hf; omega
  | succ n =>
    unfold trimLeftSpace
    simp only
    rw [DecodeRuneInString_space_append x y hsp, hall]
    have h0 : x.length ≠ 0 := by omega
    rw [if_neg h0, if_pos hsp, List.drop_left]
    exact hy n (by simp only [List.length_append] at hf; omega)

/-- White space followed by white space is white space. -/
theorem onlySpace_append (a b : GoString) (ha : onlySpace a = true) (hb : onlySpace b = true) :
    onlySpace (a ++ b) = true := by
  have key : ∀ (n : Nat) (a : GoString), a.length ≤ n → onlySpace a = true →
      onlySpace (a ++ b) = true := by
    intro n
    induction n with
    | zero =>
      intro a hlen _
      have : a = [] := List.length_eq_zero.mp (by omega)
      rw [this]
      exact hb
    | succ k ih =>
      intro a hlen ha
      by_cases hne : a = []
      · rw [hne]
        exact hb
      · have hb1 := DecodeRuneInString_size_bounds a hne
        have hsz : (DecodeRuneInString a).2 ≠ 0 := by omega
        have hpos : 0 < a.length := List.length_pos.mpr hne
        have ha1 := (onlySpace_iff a).mp ha a.length (le_refl _)
        obtain ⟨m, hm⟩ : ∃ m, a.length = m + 1 := ⟨a.length - 1, by omega⟩
        rw [hm] at ha1
        unfold trimLeftSpace at ha1
        simp only [if_neg hsz] at ha1
        by_cases hsp : IsSpace (DecodeRuneInString a).1 = true
        · rw [if_pos hsp] at ha1
          have hrest : onlySpace (a.drop (DecodeRuneInString a).2) = true := by
            rw [onlySpace_iff]
            intro f hf
            rw [trimLeftSpace_fuel f m _ hf (by rw [List.length_drop]; omega)]
            exact ha1
          have hrec := ih (a.drop (DecodeRuneInString a).2)
            (by rw [List.length_drop]; omega) hrest
          rw [onlySpace_iff] at hrec ⊢
          intro f hf
          cases f with
          | zero => simp only [List.length_append] at hf; omega
          | succ n =>
            unfold trimLeftSpace
            simp only
            rw [DecodeRuneInString_space_append a b hsp, if_neg hsz, if_pos hsp,
              List.drop_append_of_le_length hb1.2]
            exact hrec n (by
              simp only [List.length_append, List.length_drop] at hf ⊢
              omega)
        · rw [if_neg hsp] at ha1
          exact absurd ha1 hne
  exact key a.length a (le_refl _) ha

/-- What `strings.TrimLeftFunc` removes is white space. -/
theorem trimLeftSpace_removed (fuel : Nat) (s : GoString) :
    ∃ l, s = l ++ trimLeftSpace fuel s ∧ onlySpace l = true := by
  induction fuel generalizing s with
  | zero => exact ⟨[], rfl, onlySpace_nil⟩
  | succ n ih =>
    unfold trimLeftSpace
    simp only
    split_ifs with h0 h1
    · exact ⟨[], rfl, onlySpace_nil⟩
    · obtain ⟨l, hl, hsp⟩ := ih (s.drop (DecodeRuneInString s).2)
      have hne : s ≠ [] := fun hs => h0 ((DecodeRuneInString_size_eq_zero s).mpr hs)
      have hb := DecodeRuneInString_size_bounds s hne
      refine ⟨s.take (DecodeRuneInString s).2 ++ l, ?_, ?_⟩
      · rw [List.append_assoc, ← hl, List.take_append_drop]
      · apply onlySpace_rune_append _ _ _ _ _ hsp
        · intro h
          have := congrArg List.length h
          rw [List.length_take] at this
          simp only [List.length_nil] at this
          omega
        · rw [DecodeRuneInString_space_take s h1]
          exact h1
        · rw [DecodeRuneInString_space_take s h1, List.length_take]
          omega
    · exact ⟨[], rfl, onlySpace_nil⟩

theorem drop_length_sub_one (s : GoString) (h : s ≠ []) :
    s.drop (s.length - 1) = [s.getD (s.length - 1) 0] := by
  induction s with
  | nil => exact absurd rfl h
  | cons a t ih =>
    cases t with
    | nil => rfl
    | cons b t =>
      have := ih (by simp)
      simp only [List.length_cons, Nat.add_sub_cancel] at this ⊢
      rw [List.drop_succ_cons, List.getD_cons_succ]
      exact this

/-- The bytes of a trailing space rune, taken alone, are that one rune. -/
theorem DecodeLastRuneInString_space (s : GoString)
    (h : IsSpace (DecodeLastRuneInString s).1 = true) :
    DecodeRuneInString (s.drop (s.length - (DecodeLastRuneInString s).2))
        = DecodeLastRuneInString s
      ∧ (DecodeLastRuneInString s).2 = (s.drop (s.length - (DecodeLastRuneInString s).2)).length
      ∧ s ≠ [] := by
  by_cases hne : s = []
  · rw [hne] at h
    exact absurd (show IsSpace RuneError = true from h) (by decide)
  · have hb := DecodeLastRuneInString_size_bounds s hne
    refine ⟨?_, by rw [List.length_drop]; omega, hne⟩
    have hlen : s.length ≠ 0 := fun h0 => hne (List.length_eq_zero.mp h0)
    unfold DecodeLastRuneInString at h ⊢
    simp only [if_neg hlen] at h ⊢
    split_ifs at h ⊢ with h1 h2
    · simp only
      rw [drop_length_sub_one s hne]
      generalize s.getD (s.length - 1) 0 = b at h1
      simp only [DecodeRuneInString, if_pos h1]
    · exact absurd (show IsSpace RuneError = true from h) (by decide)
    · have h3 : (lastRuneScan s (s.length - 4) (s.length - 1)).toNat
          + (DecodeRuneInString (s.drop (lastRuneScan s (s.length - 4) (s.length - 1)).toNat)).2
          = s.length := by
        by_contra hcon
        exact h2 hcon
      have h4 : s.length
          - (DecodeRuneInString (s.drop (lastRuneScan s (s.length - 4) (s.length - 1)).toNat)).2
          = (lastRuneScan s (s.length - 4) (s.length - 1)).toNat := by omega
      rw [h4]

/-- What `strings.TrimRightFunc` removes is white space. -/
theorem trimRightSpace_removed (fuel : Nat) (s : GoString) :
    ∃ r, s = trimRightSpace fuel s ++ r ∧ onlySpace r = true := by
  induction fuel generalizing s with
  | zero => exact ⟨[], by simp [trimRightSpace], onlySpace_nil⟩
  | succ n ih =>
    unfold trimRightSpace
    simp only
    split_ifs with h0 h1
    · exact ⟨[], by simp, onlySpace_nil⟩
    · obtain ⟨r, hr, hsp⟩ := ih (s.take (s.length - (DecodeLastRuneInString s).2))
      obtain ⟨hd, hlen, hne⟩ := DecodeLastRuneInString_space s h1
      refine ⟨r ++ s.drop (s.length - (DecodeLastRuneInString s).2), ?_, ?_⟩
      · rw [← List.append_assoc, ← hr, List.take_append_drop]
      · apply onlySpace_append _ _ hsp
        have hpiece := onlySpace_rune_append
          (s.drop (s.length - (DecodeLastRuneInString s).2)) [] (by
            intro hnil
            rw [hnil] at hlen
            simp only [List.length_nil] at hlen
            exact h0 hlen) (by rw [hd]; exact h1) (by rw [hd]; exact hlen) onlySpace_nil
        simpa using hpiece
    · exact ⟨[], by simp, onlySpace_nil⟩

/-- `strings.TrimSpace` keeps a middle part of its argument and removes white space only. -/
theorem TrimSpace_removed (s : GoString) :
    ∃ l r, s = l ++ TrimSpace s ++ r ∧ onlySpace l = true ∧ onlySpace r = true := by
  obtain ⟨l, hl, hlsp⟩ := trimLeftSpace_removed s.length s
  obtain ⟨r, hr, hrsp⟩ := trimRightSpace_removed (trimLeftSpace s.length s).length
    (trimLeftSpace s.length s)
  refine ⟨l, r, ?_, hlsp, hrsp⟩
  unfold TrimSpace
  simp only
  rw [List.append_assoc, ← hr, ← hl]

/-! ## Stepping through `GenerateContent` -/

theorem Sprintf_fence (language : GoString) :
    Sprintf (str "```%s") [language] = str "```" ++ language := by
  have h : str "```%s" = str "```" ++ str "%s" ++ [] := by decide
  rw [h, Sprintf_wrap _ _ _ (by decide) (by decide), List.append_nil]

/-- On a sequence that is not empty `GenerateContent` is its loop, entered with the index of
the last block, index 0 and both list-run flags false. -/
theorem GenerateContent_cons (world : World) (config : BlogConfig) (out : Output)
    (block : Block) (rest : List Block) (prefixes : List GoString) :
    GenerateContent world config out (block :: rest) prefixes
      = generateLoop world config (block :: rest) prefixes rest.length 0 false false out := by
  simp [GenerateContent]

/-- One pass of the loop outside a list run: the switch on the block, then the rest of the
sequence with the flags the switch left. -/
theorem generateLoop_cons_ok (world : World) (config : BlogConfig) (block : Block)
    (rest : List Block) (prefixes : List GoString) (lastIndex blkIdx : Nat) (out : Output)
    (numberedList bulletedList : Bool) (out1 : Output)
    (h : generateBlock world config block prefixes lastIndex blkIdx false false out
      = .ok (numberedList, bulletedList, out1)) :
    generateLoop world config (block :: rest) prefixes lastIndex blkIdx false false out
      = generateLoop world config rest prefixes lastIndex (blkIdx + 1) numberedList
          bulletedList out1 := by
  simp [generateLoop, h]

/-- A conditional between two members of a list is a member of it. -/
theorem mem_ite_of_mem {α : Type} (c : Prop) [Decidable c] {a b : α} {l : List α}
    (ha : a ∈ l) (hb : b ∈ l) : (if c then a else b) ∈ l := by
  split <;> assumption

/-! ## The passes of the loop of `wordWrap` -/

/-- More fuel than the bytes that are left does not change what the loop returns. -/
theorem wordWrapLoop_fuel (text : GoString) (lineWidth : Int) (pfx : GoString) (f g : Nat)
    (st : WrapState) (hi : st.i ≤ text.length) (hj : st.j ≤ st.i)
    (hf : text.length - st.i < f) (hg : text.length - st.i < g) :
    wordWrapLoop text lineWidth pfx f st = wordWrapLoop text lineWidth pfx g st := by
  induction f generalizing g st with
  | zero => omega
  | succ n ih =>
    cases g with
    | zero => omega
    | succ m =>
      unfold wordWrapLoop
      rcases wordWrapStep_progress text lineWidth pfx st hi hj with
        ⟨_, out, h⟩ | ⟨st1, h, h1, h2, h3⟩
      · rw [h]
      · rw [h]
        exact ih m st1 h2 h3 (by omega) (by omega)

/-- At the start of every pass `j ≤ i ≤ len(text)`. -/
theorem wordWrapAfter_bounds (text : GoString) (lineWidth : Int) (pfx : GoString) (n : Nat)
    (st : WrapState) (h : wordWrapAfter text lineWidth pfx n = some st) :
    st.j ≤ st.i ∧ st.i ≤ text.length := by
  induction n generalizing st with
  | zero =>
    simp only [wordWrapAfter, Option.some.injEq] at h
    rw [← h]
    simp [wordWrapInit]
  | succ n ih =>
    unfold wordWrapAfter at h
    cases hprev : wordWrapAfter text lineWidth pfx n with
    | none => simp [hprev] at h
    | some st0 =>
      have hb := ih st0 hprev
      rw [hprev] at h
      simp only at h
      rcases wordWrapStep_progress text lineWidth pfx st0 hb.2 hb.1 with
        ⟨_, out, hs⟩ | ⟨st1, hs, h1, h2, h3⟩
      · rw [hs] at h
        simp at h
      · rw [hs] at h
        simp only [Option.some.injEq] at h
        rw [← h]
        exact ⟨h3, h2⟩

/-! ## The lines of a wrapped text -/

/-- Wrapping words keeps the output made of lines of whole words: the first line holds the
words `first` joined by single spaces, every later line the prefix and the words of one group
of `rest` joined by single spaces, and the words of the lines, in order, are those wrapped so
far. -/
theorem wrapWords_lines (lineWidth : Int) (pfx : GoString) (hpfx : (0x0A : UInt8) ∉ pfx)
    (ws : List (GoString × Nat)) (hws : ∀ we ∈ ws, we.1 ≠ [] ∧ (0x0A : UInt8) ∉ we.1)
    (acc : GoString × Int) (done : List GoString) (hempty : acc.1 = [] ↔ done = [])
    (hacc : ∃ (first : List GoString) (rest : List (List GoString)),
      first ++ rest.flatten = done ∧ (∀ g ∈ rest, g ≠ [])
        ∧ splitLines acc.1
          = (str " ").intercalate first
            :: rest.map (fun g => pfx ++ (str " ").intercalate g)) :
    ∃ (first : List GoString) (rest : List (List GoString)),
      first ++ rest.flatten = done ++ ws.map Prod.fst ∧ (∀ g ∈ rest, g ≠ [])
        ∧ splitLines (wrapWords lineWidth pfx ws acc).1
          = (str " ").intercalate first
            :: rest.map (fun g => pfx ++ (str " ").intercalate g) := by
  induction ws generalizing acc done with
  | nil => simpa [wrapWords] using hacc
  | cons we ws ih =>
    have hw : (0x0A : UInt8) ∉ we.1 := (hws we (List.mem_cons_self _ _)).2
    have hwne : we.1 ≠ [] := (hws we (List.mem_cons_self _ _)).1
    have hws1 : ∀ x ∈ ws, x.1 ≠ [] ∧ (0x0A : UInt8) ∉ x.1 :=
      fun x hx => hws x (List.mem_cons_of_mem _ hx)
    have hsp : str " " = [0x20] := by decide
    rw [wrapWords_cons]
    obtain ⟨first, rest, hdone, hrest, hlines⟩ := hacc
    have hstep : ((wrapWord lineWidth pfx acc we).1 = [] ↔ done ++ [we.1] = [])
        ∧ ∃ (first1 : List GoString) (rest1 : List (List GoString)),
          first1 ++ rest1.flatten = done ++ [we.1] ∧ (∀ g ∈ rest1, g ≠ [])
            ∧ splitLines (wrapWord lineWidth pfx acc we).1
              = (str " ").intercalate first1
                :: rest1.map (fun g => pfx ++ (str " ").intercalate g) := by
      unfold wrapWord
      split_ifs with h1 h2
      · -- a new line
        have hline : (0x0A : UInt8) ∉ pfx ++ we.1 := by
          intro hm
          rcases List.mem_append.mp hm with h | h
          · exact hpfx h
          · exact hw h
        have hsplit : splitLines (acc.1 ++ [0x0A] ++ pfx ++ we.1)
            = splitLines acc.1 ++ [pfx ++ we.1] := by
          have : acc.1 ++ [0x0A] ++ pfx ++ we.1 = acc.1 ++ 0x0A :: (pfx ++ we.1) := by simp
          rw [this, splitLines_append_line _ _ hline]
        refine ⟨by simp, first, rest ++ [[we.1]], ?_, ?_, ?_⟩
        · rw [List.flatten_append, ← List.append_assoc, hdone]
          simp
        · intro g hg
          rcases List.mem_append.mp hg with h | h
          · exact hrest g h
          · simp only [List.mem_singleton] at h
            rw [h]
            simp
        · simp only [hsplit, hlines]
          simp [List.intercalate]
      · -- the same line
        have hline : (0x0A : UInt8) ∉ (0x20 : UInt8) :: we.1 := by
          intro hm
          rcases List.mem_cons.mp hm with h | h
          · exact absurd h (by decide)
          · exact hw h
        have hsplit : splitLines (acc.1 ++ [0x20] ++ we.1)
            = appendToLast (splitLines acc.1) (0x20 :: we.1) := by
          have : acc.1 ++ [0x20] ++ we.1 = acc.1 ++ 0x20 :: we.1 := by simp
          rw [this, splitLines_append _ _ hline]
        have haccne : acc.1 ≠ [] := List.length_pos.mp h2
        have hdne : done ≠ [] := fun h => haccne (hempty.mpr h)
        refine ⟨by simp, ?_⟩
        rcases List.eq_nil_or_concat rest with hr | ⟨rest0, g, hr⟩
        · -- the words go on the first line
          subst hr
          have hfirst : first ≠ [] := by
            intro h
            apply hdne
            rw [← hdone, h]
            rfl
          refine ⟨first ++ [we.1], [], ?_, by simp, ?_⟩
          · rw [← hdone]
            simp
          · rw [hsplit, hlines, intercalate_snoc _ _ _ hfirst, hsp]
            simp [appendToLast]
        · -- the words go on the last line
          rw [List.concat_eq_append] at hr
          subst hr
          have hg : g ≠ [] := hrest g (by simp)
          refine ⟨first, rest0 ++ [g ++ [we.1]], ?_, ?_, ?_⟩
          · rw [← hdone]
            simp
          · intro x hx
            rcases List.mem_append.mp hx with h | h
            · exact hrest x (by simp [h])
            · simp only [List.mem_singleton] at h
              rw [h]
              simp
          · rw [hsplit, hlines, List.map_append, List.map_append, List.map_singleton,
              List.map_singleton, ← List.cons_append, appendToLast_snoc,
              intercalate_snoc _ _ _ hg, hsp]
            simp
      · -- the first word
        have hacc0 : acc.1 = [] := by
          cases hacc1 : acc.1 with
          | nil => rfl
          | cons c cs => rw [hacc1] at h2; simp at h2
        have hd0 : done = [] := hempty.mp hacc0
        refine ⟨by simp [hwne], [we.1], [], ?_, by simp, ?_⟩
        · rw [hd0]
          rfl
        · rw [hacc0, List.nil_append, splitLines_no_newline _ hw]
          simp [List.intercalate]
    have := ih hws1 (wrapWord lineWidth pfx acc we) (done ++ [we.1]) hstep.1 hstep.2
    simpa using this

/-- Every word of a text is not empty and holds neither a newline nor a space byte. -/
theorem Fields_word (text : GoString) :
    ∀ w ∈ Fields text, w ≠ [] ∧ (0x0A : UInt8) ∉ w ∧ (0x20 : UInt8) ∉ w := by
  intro w hw
  unfold Fields wordEnds at hw
  obtain ⟨we, hwe, rfl⟩ := List.mem_map.mp hw
  exact ⟨wordEndsLoop_nonempty _ _ _ _ we hwe,
    wordEndsLoop_no_sep _ _ _ _ 0x0A (Or.inl rfl) (by simp) we hwe,
    wordEndsLoop_no_sep _ _ _ _ 0x20 (Or.inr rfl) (by simp) we hwe⟩

/-! ## The claims -/

/-- C1: a text of short words whose continuation line outgrows the width.  With width 10 and
the two-space prefix every word of `aaaa bbbb cccc dddd` (4 bytes) fits the 8 available
columns, yet the third line of `wordWrap`'s output holds two words and is 11 bytes long, 9
without its prefix: the loop compares the input offset `i` with `eoLine`, which it computes
from the length of the output. -/
theorem wordWrap_continuation_line_exceeds_width :
    wordWrap (str "aaaa bbbb cccc dddd") 10 (str "  ") = .ok (str "aaaa\n  bbbb\n  cccc dddd")
      ∧ Fields (str "aaaa bbbb cccc dddd") = [str "aaaa", str "bbbb", str "cccc", str "dddd"]
      ∧ splitLines (str "aaaa\n  bbbb\n  cccc dddd")
          = [str "aaaa", str "  bbbb", str "  cccc dddd"]
      ∧ (str "  cccc dddd").length = 11 ∧ (str "cccc dddd").length = 9 := by
  decide

/-- C3: a sibling sequence of two childless bullets `a` and `b`.  `GenerateContent` writes the
two bullet lines and returns: no blank line follows the last list item. -/
theorem GenerateContent_trailing_list_run_unterminated (world : World) (config : BlogConfig) :
    GenerateContent world config ⟨[], [], []⟩
        [Block.BulletedListItem (plainText (str "a")) [],
          Block.BulletedListItem (plainText (str "b")) []] []
      = .ok ⟨str "- a\n- b\n", [], []⟩ := by
  rfl

/-- C4: two childless bullets `a` and `b` and a childless paragraph that is one word of 81
bytes.  Between the line of the second bullet and the paragraph's text `GenerateContent`
writes two blank lines: the terminator of the list run, and the newline `wordWrap` puts before
a first word that ends beyond column 80. -/
theorem GenerateContent_list_then_long_word_paragraph (world : World) (config : BlogConfig) :
    GenerateContent world config ⟨[], [], []⟩
        [Block.BulletedListItem (plainText (str "a")) [],
          Block.BulletedListItem (plainText (str "b")) [],
          Block.Paragraph (plainText (List.replicate 81 0x61)) []] []
      = .ok ⟨str "- a\n- b\n\n\n" ++ List.replicate 81 0x61 ++ str "\n", [], []⟩ := by
  rfl

/-- C5: with the code flag set, whatever the bold, italic, strikethrough and underline flags
(and the colour) are, `emphFormat` returns the inline-code format, and `ConvertRich` renders a
text span without link as its content between two single backticks and nothing else. -/
theorem emphFormat_code_overrides (bold italic strikethrough underline : Bool)
    (color c : GoString) :
    emphFormat (some ⟨bold, italic, strikethrough, underline, true, color⟩) = str "`%s`"
      ∧ ConvertRich ⟨ObjectTypeText, ⟨c, none⟩,
            some ⟨bold, italic, strikethrough, underline, true, color⟩⟩
          = str "`" ++ c ++ str "`" := by
  constructor
  · rfl
  · rw [ConvertRich_text]
    rfl

/-- C6: without the code flag, underline together with strikethrough wraps the bold/italic
format in `__` only, and the format holds no `~`; strikethrough without underline wraps it in
`~~` only, and the format holds no `_`. -/
theorem emphFormat_underline_over_strikethrough (bold italic : Bool) (color : GoString) :
    emphFormat (some ⟨bold, italic, true, true, false, color⟩)
        = str "__" ++ emphFormat (some ⟨bold, italic, false, false, false, color⟩) ++ str "__"
      ∧ (0x7E : UInt8) ∉ emphFormat (some ⟨bold, italic, true, true, false, color⟩)
      ∧ emphFormat (some ⟨bold, italic, true, false, false, color⟩)
        = str "~~" ++ emphFormat (some ⟨bold, italic, false, false, false, color⟩) ++ str "~~"
      ∧ (0x5F : UInt8) ∉ emphFormat (some ⟨bold, italic, true, false, false, color⟩) := by
  have hu : emphFormat (some ⟨bold, italic, true, true, false, color⟩)
      = emphOpeningOf bold italic true true false ++ str "%s"
        ++ emphClosingOf bold italic true true false := emphFormat_eq _
  have hs : emphFormat (some ⟨bold, italic, true, false, false, color⟩)
      = emphOpeningOf bold italic true false false ++ str "%s"
        ++ emphClosingOf bold italic true false false := emphFormat_eq _
  refine ⟨?_, ?_, ?_, ?_⟩
  · cases bold <;> cases italic <;> rfl
  · rw [hu]
    cases bold <;> cases italic <;> decide
  · cases bold <;> cases italic <;> rfl
  · rw [hs]
    cases bold <;> cases italic <;> decide

/-- C7: without code, underline and strikethrough, a text span without link with content `c`
renders as `***c***` when bold and italic, `**c**` when only bold, `*c*` when only italic, and
as `c` itself when neither is set or when the span has no annotations at all. -/
theorem ConvertRich_bold_italic_tiers (c color : GoString) :
    ConvertRich ⟨ObjectTypeText, ⟨c, none⟩, some ⟨true, true, false, false, false, color⟩⟩
        = str "***" ++ c ++ str "***"
      ∧ ConvertRich ⟨ObjectTypeText, ⟨c, none⟩, some ⟨true, false, false, false, false, color⟩⟩
        = str "**" ++ c ++ str "**"
      ∧ ConvertRich ⟨ObjectTypeText, ⟨c, none⟩, some ⟨false, true, false, false, false, color⟩⟩
        = str "*" ++ c ++ str "*"
      ∧ ConvertRich ⟨ObjectTypeText, ⟨c, none⟩, some ⟨false, false, false, false, false, color⟩⟩
        = c
      ∧ ConvertRich ⟨ObjectTypeText, ⟨c, none⟩, none⟩ = c := by
  refine ⟨?_, ?_, ?_, ?_, ?_⟩
  · rw [ConvertRich_text]; rfl
  · rw [ConvertRich_text]; rfl
  · rw [ConvertRich_text]; rfl
  · rw [ConvertRich_text]
    show ([] ++ []) ++ c ++ ([] ++ []) = c
    simp
  · rw [ConvertRich_text]
    show [] ++ c ++ [] = c
    simp

/-- C8: `ConvertRichText` is `strings.TrimSpace` of the spans' renderings concatenated in
order without separator: the result is that concatenation without a leading and a trailing
part that are white space only; it is empty or neither its first nor its last rune is a
space; and it is empty for no span. -/
theorem ConvertRichText_concat_trimmed (t : List RichText) :
    ConvertRichText t = TrimSpace ((t.map ConvertRich).flatten)
      ∧ (∃ l r, (t.map ConvertRich).flatten = l ++ ConvertRichText t ++ r
          ∧ onlySpace l = true ∧ onlySpace r = true)
      ∧ (ConvertRichText t = []
          ∨ (IsSpace (DecodeRuneInString (ConvertRichText t)).1 = false
              ∧ IsSpace (DecodeLastRuneInString (ConvertRichText t)).1 = false))
      ∧ ConvertRichText [] = [] := by
  refine ⟨ConvertRichText_eq t, ?_, ?_, by decide⟩
  · rw [ConvertRichText_eq]
    exact TrimSpace_removed _
  · rw [ConvertRichText_eq]
    exact TrimSpace_ends _

/-- C9: for every annotation set `a` the emphasis format is `opening%sclosing`; a text span
with content `c` and link `u` renders as the link `[c](u)` between `opening` and `closing`, a
text span without link as `c` between them; a bold link renders as `**[c](u)**`. -/
theorem ConvertRich_link_inside_emphasis (a : Option Annotations) :
    (∃ opening closing : GoString,
        emphFormat a = opening ++ str "%s" ++ closing
        ∧ (∀ c u : GoString, ConvertRich ⟨ObjectTypeText, ⟨c, some ⟨u⟩⟩, a⟩
            = opening ++ (str "[" ++ c ++ str "](" ++ u ++ str ")") ++ closing)
        ∧ (∀ c : GoString, ConvertRich ⟨ObjectTypeText, ⟨c, none⟩, a⟩
            = opening ++ c ++ closing))
      ∧ (∀ c u : GoString, ConvertRich ⟨ObjectTypeText, ⟨c, some ⟨u⟩⟩, a⟩
          = Sprintf (emphFormat a) [str "[" ++ c ++ str "](" ++ u ++ str ")"])
      ∧ (∀ c u color : GoString,
          ConvertRich ⟨ObjectTypeText, ⟨c, some ⟨u⟩⟩,
              some ⟨true, false, false, false, false, color⟩⟩
            = str "**" ++ (str "[" ++ c ++ str "](" ++ u ++ str ")") ++ str "**") := by
  refine ⟨⟨emphOpening a, emphClosing a, emphFormat_eq a, ?_, ?_⟩, ?_, ?_⟩
  · intro c u
    exact ConvertRich_link c u a
  · intro c
    exact ConvertRich_text c a
  · intro c u
    rw [ConvertRich_link, Sprintf_emphFormat]
  · intro c u color
    rw [ConvertRich_link]
    rfl

/-- C10: with shortcodes disabled, `GenerateContent` on a single Callout block returns the
output it was given: nothing is written to the sink (nor anywhere else), whatever the
callout's icon, rich text and children and the inherited prefixes are. -/
theorem GenerateContent_callout_without_shortcodes (world : World)
    (imagesFolder imagesLink archetypeFile : GoString) (icon : Option Icon)
    (richText : List RichText) (children : List Block) (prefixes : List GoString)
    (out : Output) :
    GenerateContent world ⟨false, imagesFolder, imagesLink, archetypeFile⟩ out
      [Block.Callout icon richText children] prefixes = .ok out := by
  simp [GenerateContent, generateLoop, generateBlock]

set_option maxRecDepth 100000

/-- C11: a Code block, at any place of a sequence and under any inherited prefixes, is written
as three emissions, each after the joined prefixes: the opening fence, which is the bare ```
when the language is the string `plain text` and ``` followed by the language string as it is
for every other language; the rich text of the block as `ConvertRichText` renders it, whole
and without a call of `wordWrap`; and the closing ``` followed by an empty line.
`GenerateContent` on the block alone writes just that. -/
theorem GenerateContent_code_block (world : World) (config : BlogConfig)
    (language : GoString) (richText : List RichText) (prefixes : List GoString)
    (lastIndex blkIdx : Nat) (numberedList bulletedList : Bool) (out : Output) :
    generateBlock world config (Block.Code language richText) prefixes lastIndex blkIdx
          numberedList bulletedList out
        = .ok (numberedList, bulletedList,
            { out with
              w := out.w
                ++ (joinPrefixes prefixes
                  ++ (if language = str "plain text" then str "```" else str "```" ++ language)
                  ++ [0x0A])
                ++ (joinPrefixes prefixes ++ ConvertRichText richText ++ [0x0A])
                ++ (joinPrefixes prefixes ++ str "```" ++ [0x0A] ++ [0x0A]) })
      ∧ GenerateContent world config out [Block.Code language richText] prefixes
        = .ok { out with
            w := out.w
              ++ (joinPrefixes prefixes
                ++ (if language = str "plain text" then str "```" else str "```" ++ language)
                ++ [0x0A])
              ++ (joinPrefixes prefixes ++ ConvertRichText richText ++ [0x0A])
              ++ (joinPrefixes prefixes ++ str "```" ++ [0x0A] ++ [0x0A]) } := by
  have hf : str "```\n" = str "```" ++ [0x0A] := by decide
  have hfmt : (str "```%s").getLast? ≠ some 0x0A := by decide
  have hb : ∀ (lastIndex blkIdx : Nat) (numberedList bulletedList : Bool),
      generateBlock world config (Block.Code language richText) prefixes lastIndex blkIdx
          numberedList bulletedList out
        = .ok (numberedList, bulletedList,
            { out with
              w := out.w
                ++ (joinPrefixes prefixes
                  ++ (if language = str "plain text" then str "```" else str "```" ++ language)
                  ++ [0x0A])
                ++ (joinPrefixes prefixes ++ ConvertRichText richText ++ [0x0A])
                ++ (joinPrefixes prefixes ++ str "```" ++ [0x0A] ++ [0x0A]) }) := by
    intro lastIndex blkIdx numberedList bulletedList
    by_cases hl : language = str "plain text"
    · simp only [generateBlock, if_pos hl, fprintln, Sprintln_one, hf]
      simp
    · simp only [generateBlock, if_neg hl, fprintf_line _ _ _ _ hfmt, fprintln, Sprintln_one,
        Sprintf_fence, hf]
      simp
  refine ⟨hb _ _ _ _, ?_⟩
  rw [GenerateContent_cons, generateLoop_cons_ok _ _ _ _ _ _ _ _ _ _ _ (hb _ _ _ _)]
  rfl

/-- C12: `EmojiToName` maps the light bulb to `tip` and the party popper, which is not in its
table, to `note`; every glyph that is none of the nineteen glyphs of the table maps to `note`;
and the result is always one of the twelve category names. -/
theorem EmojiToName_table_and_default :
    EmojiToName (str "💡") = str "tip"
      ∧ EmojiToName (str "🎉") = str "note"
      ∧ (∀ emoji : GoString,
          emoji ∉ [str "⚠️", str "💡", str "🐞", str "❓", str "❔", str "❌", str "🧨", str "💣",
            str "✅", str "🆗", str "☑️", str "✔️", str "☠️", str "⛔", str "🛑", str "📋",
            str "💬", str "ℹ️", str "✍️"]
            → EmojiToName emoji = str "note")
      ∧ ∀ emoji : GoString,
          EmojiToName emoji ∈ [str "warning", str "tip", str "bug", str "question", str "failure",
            str "success", str "danger", str "abstract", str "quote", str "info",
            str "example", str "note"] := by
  refine ⟨by decide, by decide, ?_, ?_⟩
  · intro emoji h
    simp only [List.mem_cons, List.mem_singleton, List.not_mem_nil, not_or, or_false] at h
    simp [EmojiToName, h]
  · intro emoji
    unfold EmojiToName
    exact mem_ite_of_mem _ (List.mem_cons_self _ _)
      (mem_ite_of_mem _ (List.mem_cons_of_mem _ (List.mem_cons_self _ _))
      (mem_ite_of_mem _ (List.mem_cons_of_mem _ (List.mem_cons_of_mem _ (List.mem_cons_self _ _)))
      (mem_ite_of_mem _ (List.mem_cons_of_mem _ (List.mem_cons_of_mem _ (List.mem_cons_of_mem _ (List.mem_cons_self _ _))))
      (mem_ite_of_mem _ (List.mem_cons_of_mem _ (List.mem_cons_of_mem _ (List.mem_cons_of_mem _ (List.mem_cons_of_mem _ (List.mem_cons_self _ _)))))
      (mem_ite_of_mem _ (List.mem_cons_of_mem _ (List.mem_cons_of_mem _ (List.mem_cons_of_mem _ (List.mem_cons_of_mem _ (List.mem_cons_of_mem _ (List.mem_cons_self _ _))))))
      (mem_ite_of_mem _ (List.mem_cons_of_mem _ (List.mem_cons_of_mem _ (List.mem_cons_of_mem _ (List.mem_cons_of_mem _ (List.mem_cons_of_mem _ (List.mem_cons_of_mem _ (List.mem_cons_self _ _)))))))
      (mem_ite_of_mem _ (List.mem_cons_of_mem _ (List.mem_cons_of_mem _ (List.mem_cons_of_mem _ (List.mem_cons_of_mem _ (List.mem_cons_of_mem _ (List.mem_cons_of_mem _ (List.mem_cons_of_mem _ (List.mem_cons_self _ _))))))))
      (mem_ite_of_mem _ (List.mem_cons_of_mem _ (List.mem_cons_of_mem _ (List.mem_cons_of_mem _ (List.mem_cons_of_mem _ (List.mem_cons_of_mem _ (List.mem_cons_of_mem _ (List.mem_cons_of_mem _ (List.mem_cons_of_mem _ (List.mem_cons_self _ _)))))))))
      (mem_ite_of_mem _ (List.mem_cons_of_mem _ (List.mem_cons_of_mem _ (List.mem_cons_of_mem _ (List.mem_cons_of_mem _ (List.mem_cons_of_mem _ (List.mem_cons_of_mem _ (List.mem_cons_of_mem _ (List.mem_cons_of_mem _ (List.mem_cons_of_mem _ (List.mem_cons_self _ _))))))))))
      (mem_ite_of_mem _ (List.mem_cons_of_mem _ (List.mem_cons_of_mem _ (List.mem_cons_of_mem _ (List.mem_cons_of_mem _ (List.mem_cons_of_mem _ (List.mem_cons_of_mem _ (List.mem_cons_of_mem _ (List.mem_cons_of_mem _ (List.mem_cons_of_mem _ (List.mem_cons_of_mem _ (List.mem_cons_self _ _)))))))))))
      (List.mem_cons_of_mem _ (List.mem_cons_of_mem _ (List.mem_cons_of_mem _ (List.mem_cons_of_mem _ (List.mem_cons_of_mem _ (List.mem_cons_of_mem _ (List.mem_cons_of_mem _ (List.mem_cons_of_mem _ (List.mem_cons_of_mem _ (List.mem_cons_of_mem _ (List.mem_cons_of_mem _ (List.mem_cons_self _ _))))))))))))))))))))))

/-- C13: with shortcodes disabled and no inherited prefix, `GenerateContent` on a Bookmark
block with URL `u` appends the line `[u](u)` to the sink, the URL as it is in both places, and
leaves the rest of the output as it was.  The result is the same for every world: no answer
of `parseMetadata` goes into it and no fetch error is logged.  For `https://example.com` the
line is `[https://example.com](https://example.com)`. -/
theorem GenerateContent_bookmark_plain_link (world : World)
    (imagesFolder imagesLink archetypeFile : GoString) (u : GoString) (out : Output) :
    GenerateContent world ⟨false, imagesFolder, imagesLink, archetypeFile⟩ out
          [Block.Bookmark u] []
        = .ok { out with w := out.w ++ (str "[" ++ u ++ str "](" ++ u ++ str ")") ++ [0x0A] }
      ∧ GenerateContent world ⟨false, imagesFolder, imagesLink, archetypeFile⟩ ⟨[], [], []⟩
          [Block.Bookmark (str "https://example.com")] []
        = .ok ⟨str "[https://example.com](https://example.com)\n", [], []⟩ := by
  have h : ∀ (u : GoString) (out : Output),
      GenerateContent world ⟨false, imagesFolder, imagesLink, archetypeFile⟩ out
          [Block.Bookmark u] []
        = .ok { out with
            w := out.w ++ (str "[" ++ u ++ str "](" ++ u ++ str ")") ++ [0x0A] } := by
    intro u out
    have hfmt : (str "[%s](%s)").getLast? ≠ some 0x0A := by decide
    simp [GenerateContent, generateLoop, generateBlock, fprintf_line _ _ _ _ hfmt, Sprintf_link,
      joinPrefixes]
  refine ⟨h u out, ?_⟩
  rw [h]
  decide

/-- C15: a Quote `q` whose child is a Paragraph `p` that has a child Paragraph `c`.  The
paragraph `p` is rendered under the prefix of the quote, yet the line of its child `c` carries
no prefix: the Paragraph case calls `GenerateContent` on the children without the prefixes.
A Callout in the place of `p` hands its prefixes on: there the line of `c` carries `> `. -/
theorem GenerateContent_paragraph_children_lose_prefixes (world : World)
    (imagesFolder imagesLink archetypeFile : GoString) :
    GenerateContent world ⟨true, imagesFolder, imagesLink, archetypeFile⟩ ⟨[], [], []⟩
          [Block.Quote (plainText (str "q"))
            [Block.Paragraph (plainText (str "p")) [Block.Paragraph (plainText (str "c")) []]]]
          []
        = .ok ⟨str "> q\n> p\nc\n\n", [], []⟩
      ∧ GenerateContent world ⟨true, imagesFolder, imagesLink, archetypeFile⟩ ⟨[], [], []⟩
          [Block.Quote (plainText (str "q"))
            [Block.Callout (some ⟨none⟩) (plainText (str "p"))
              [Block.Paragraph (plainText (str "c")) []]]]
          []
        = .ok ⟨str "> q\n> \x7b\x7b< admonition note >\x7d\x7d\n> p\n> c\n> \x7b\x7b< /admonition >\x7d\x7d\n\n\n",
            [], []⟩ := by
  constructor
  · rfl
  · rfl

/-- C16: with shortcodes enabled and no inherited prefix, a childless Callout without icon and
with the text `x` is written as the line `x` and the closing admonition marker: no opening
marker stands before them.  The same callout with an icon that has no emoji gets the opening
marker of the category `note`. -/
theorem GenerateContent_callout_without_icon (world : World)
    (imagesFolder imagesLink archetypeFile : GoString) :
    GenerateContent world ⟨true, imagesFolder, imagesLink, archetypeFile⟩ ⟨[], [], []⟩
          [Block.Callout none (plainText (str "x")) []] []
        = .ok ⟨str "x\n\x7b\x7b< /admonition >\x7d\x7d\n\n", [], []⟩
      ∧ GenerateContent world ⟨true, imagesFolder, imagesLink, archetypeFile⟩ ⟨[], [], []⟩
          [Block.Callout (some ⟨none⟩) (plainText (str "x")) []] []
        = .ok ⟨str "\x7b\x7b< admonition note >\x7d\x7d\nx\n\x7b\x7b< /admonition >\x7d\x7d\n\n",
            [], []⟩ := by
  constructor
  · rfl
  · rfl

/-- C18: the text of one word of 81 bytes, wrapped at width 80 without prefix, as the
generator wraps a paragraph.  `wordWrap` returns a newline and the word: the first line of the
output is empty, and the line break stands before the only word of the text, not between two
words. -/
theorem wordWrap_break_before_first_word :
    wordWrap (List.replicate 81 0x61) 80 (str "") = .ok (0x0A :: List.replicate 81 0x61)
      ∧ Fields (List.replicate 81 0x61) = [List.replicate 81 0x61]
      ∧ splitLines (0x0A :: List.replicate 81 0x61) = [[], List.replicate 81 0x61] := by
  decide

/-- C19: the text `aaaaaa`, one word of 6 bytes, wrapped at width 3 with the prefix `> `.
The output of `wordWrap` does not start with the word: a newline and the prefix stand before
it. -/
theorem wordWrap_newline_before_long_first_word :
    wordWrap (str "aaaaaa") 3 (str "> ") = .ok (str "\n> aaaaaa")
      ∧ Fields (str "aaaaaa") = [str "aaaaaa"] := by
  decide

/-- C20: for every text, every width of at least one and every prefix, the capacity of the
output buffer is computed without division by zero and is not negative; `wordWrap` returns
an output, and so does its loop with any larger number of passes allowed; and at the start of
every pass of the loop `j ≤ i ≤ len(text)`, the two slice expressions `text[i:]` and
`text[j:i]` are in range, and the pass either ends the loop, with `i = len(text)`, or goes on
with a strictly larger `i` that is still at most `len(text)`. -/
theorem wordWrap_terminates_in_bounds (text : GoString) (lineWidth : Int) (pfx : GoString)
    (hW : 1 ≤ lineWidth) :
    lineWidth ≠ 0
      ∧ 0 ≤ (text.length : Int) + Int.tdiv (2 * (text.length : Int)) lineWidth
      ∧ (∃ out, wordWrap text lineWidth pfx = .ok out
          ∧ ∀ fuel, text.length < fuel →
              wordWrapLoop text lineWidth pfx fuel (wordWrapInit lineWidth pfx) = .ok out)
      ∧ ∀ (n : Nat) (st : WrapState), wordWrapAfter text lineWidth pfx n = some st →
          st.j ≤ st.i ∧ st.i ≤ text.length
            ∧ slice text st.i text.length = .ok (text.drop st.i)
            ∧ slice text st.j st.i = .ok ((text.take st.i).drop st.j)
            ∧ ((st.i = text.length ∧ ∃ out, wordWrapStep text lineWidth pfx st = .done out)
              ∨ (st.i < text.length ∧ ∃ st1, wordWrapStep text lineWidth pfx st = .next st1
                  ∧ st.i < st1.i ∧ st1.i ≤ text.length)) := by
  have h0 : lineWidth ≠ 0 := by omega
  have hcap : 0 ≤ (text.length : Int) + Int.tdiv (2 * (text.length : Int)) lineWidth := by
    have : 0 ≤ Int.tdiv (2 * (text.length : Int)) lineWidth :=
      Int.tdiv_nonneg (by omega) (by omega)
    omega
  refine ⟨h0, hcap, ?_, ?_⟩
  · obtain ⟨out, hout⟩ := wordWrap_returns text lineWidth pfx hW
    refine ⟨out, hout, ?_⟩
    intro fuel hfuel
    have hdef : wordWrap text lineWidth pfx
        = wordWrapLoop text lineWidth pfx (text.length + 1) (wordWrapInit lineWidth pfx) := by
      unfold wordWrap
      rw [if_neg h0, if_neg (by omega)]
    rw [← hout, hdef]
    exact wordWrapLoop_fuel text lineWidth pfx _ _ _ (Nat.zero_le _) (le_refl _)
      (by simp only [wordWrapInit]; omega) (by simp only [wordWrapInit]; omega)
  · intro n st hst
    have hb := wordWrapAfter_bounds text lineWidth pfx n st hst
    refine ⟨hb.1, hb.2, ?_, ?_, ?_⟩
    · rw [slice_ok text st.i text.length hb.2 (le_refl _), List.take_length]
    · exact slice_ok text st.j st.i hb.1 hb.2
    · rcases wordWrapStep_progress text lineWidth pfx st hb.2 hb.1 with
        ⟨he, out, hs⟩ | ⟨st1, hs, h1, h2, _⟩
      · exact Or.inl ⟨he, out, hs⟩
      · exact Or.inr ⟨by omega, st1, hs, h1, h2⟩

/-- The passes of `wordWrap` at a text of three bytes that starts with a byte that is not
valid UTF-8, at width 1 and with a prefix of two bytes, longer than the width. -/
theorem wordWrap_terminates_in_bounds_witness :
    (1 : Int) ≤ 1
      ∧ ((1 : Int) ≠ 0
      ∧ 0 ≤ (([0xFF, 0x20, 0x61] : GoString).length : Int)
          + Int.tdiv (2 * (([0xFF, 0x20, 0x61] : GoString).length : Int)) 1
      ∧ (∃ out, wordWrap [0xFF, 0x20, 0x61] 1 (str "> ") = .ok out
          ∧ ∀ fuel, ([0xFF, 0x20, 0x61] : GoString).length < fuel →
              wordWrapLoop [0xFF, 0x20, 0x61] 1 (str "> ") fuel (wordWrapInit 1 (str "> "))
                = .ok out)
      ∧ ∀ (n : Nat) (st : WrapState),
          wordWrapAfter [0xFF, 0x20, 0x61] 1 (str "> ") n = some st →
          st.j ≤ st.i ∧ st.i ≤ ([0xFF, 0x20, 0x61] : GoString).length
            ∧ slice [0xFF, 0x20, 0x61] st.i ([0xFF, 0x20, 0x61] : GoString).length
                = .ok (([0xFF, 0x20, 0x61] : GoString).drop st.i)
            ∧ slice [0xFF, 0x20, 0x61] st.j st.i
                = .ok ((([0xFF, 0x20, 0x61] : GoString).take st.i).drop st.j)
            ∧ ((st.i = ([0xFF, 0x20, 0x61] : GoString).length
                ∧ ∃ out, wordWrapStep [0xFF, 0x20, 0x61] 1 (str "> ") st = .done out)
              ∨ (st.i < ([0xFF, 0x20, 0x61] : GoString).length
                ∧ ∃ st1, wordWrapStep [0xFF, 0x20, 0x61] 1 (str "> ") st = .next st1
                  ∧ st.i < st1.i ∧ st1.i ≤ ([0xFF, 0x20, 0x61] : GoString).length))) :=
  ⟨by decide, wordWrap_terminates_in_bounds [0xFF, 0x20, 0x61] 1 (str "> ") (by decide)⟩

/-! ## Further properties -/

/-- For every text, every width of at least one and every prefix without a newline byte,
`wordWrap` returns an output whose lines are made of whole words.  The first line is a group
of words joined by single spaces, every later line is the prefix followed by a group of at
least one word joined by single spaces, and the words of the lines, in order, are the words
of the text.  No word holds a newline or a space, so every word stands whole on one line and
every line break stands directly before the prefix and a word. -/
theorem wordWrap_lines_of_whole_words (text : GoString) (lineWidth : Int) (pfx : GoString)
    (hW : 1 ≤ lineWidth) (hP : (0x0A : UInt8) ∉ pfx) :
    ∃ (out : GoString) (first : List GoString) (rest : List (List GoString)),
      wordWrap text lineWidth pfx = .ok out
        ∧ first ++ rest.flatten = Fields text
        ∧ (∀ g ∈ rest, g ≠ [])
        ∧ splitLines out
          = (str " ").intercalate first
            :: rest.map (fun g => pfx ++ (str " ").intercalate g)
        ∧ ∀ w ∈ Fields text, w ≠ [] ∧ (0x0A : UInt8) ∉ w ∧ (0x20 : UInt8) ∉ w := by
  have hws : ∀ we ∈ wordEnds text, we.1 ≠ [] ∧ (0x0A : UInt8) ∉ we.1 := by
    intro we hwe
    have := Fields_word text we.1 (List.mem_map.mpr ⟨we, hwe, rfl⟩)
    exact ⟨this.1, this.2.1⟩
  obtain ⟨first, rest, h1, h2, h3⟩ := wrapWords_lines lineWidth pfx hP (wordEnds text) hws
    ([], lineWidth - (pfx.length : Int)) [] (by simp)
    ⟨[], [], by simp, by simp, by simp [splitLines, List.intercalate]⟩
  refine ⟨_, first, rest, wordWrap_eq_wrapWords text lineWidth pfx hW, ?_, h2, h3,
    Fields_word text⟩
  rw [h1]
  rfl

/-- The lines of whole words at the text `aaaa bbbb cccc dddd`, width 10 and the two-space
prefix. -/
theorem wordWrap_lines_of_whole_words_witness :
    (1 : Int) ≤ 10 ∧ (0x0A : UInt8) ∉ str "  "
      ∧ ∃ (out : GoString) (first : List GoString) (rest : List (List GoString)),
        wordWrap (str "aaaa bbbb cccc dddd") 10 (str "  ") = .ok out
          ∧ first ++ rest.flatten = Fields (str "aaaa bbbb cccc dddd")
          ∧ (∀ g ∈ rest, g ≠ [])
          ∧ splitLines out
            = (str " ").intercalate first
              :: rest.map (fun g => str "  " ++ (str " ").intercalate g)
          ∧ ∀ w ∈ Fields (str "aaaa bbbb cccc dddd"),
              w ≠ [] ∧ (0x0A : UInt8) ∉ w ∧ (0x20 : UInt8) ∉ w :=
  ⟨by decide, by decide,
    wordWrap_lines_of_whole_words (str "aaaa bbbb cccc dddd") 10 (str "  ") (by decide)
      (by decide)⟩

/-- For two childless bullets followed by a childless paragraph with text, under any
inherited prefixes, `wordWrap` returns for the three texts and `GenerateContent` writes the two
bullet lines, one bare newline that ends the list run, and the paragraph's line: the run is
ended once, before the paragraph, and nothing stands between the two bullets. -/
theorem GenerateContent_list_run_terminated_once (world : World) (config : BlogConfig)
    (ra rb rp : List RichText) (prefixes : List GoString) (out : Output)
    (hp : ConvertRichText rp ≠ []) :
    ∃ wa wb wp,
      wordWrap (ConvertRichText ra) 80 (prefixes ++ [str "  "]).flatten = .ok wa
      ∧ wordWrap (ConvertRichText rb) 80 (prefixes ++ [str "  "]).flatten = .ok wb
      ∧ wordWrap (ConvertRichText rp) 80 (str "") = .ok wp
      ∧ GenerateContent world config out
          [Block.BulletedListItem ra [], Block.BulletedListItem rb [], Block.Paragraph rp []]
          prefixes
        = .ok { out with
            w := out.w ++ (joinPrefixes prefixes ++ str "- " ++ wa ++ [0x0A])
              ++ (joinPrefixes prefixes ++ str "- " ++ wb ++ [0x0A])
              ++ [0x0A]
              ++ (joinPrefixes prefixes ++ wp ++ [0x0A]) } := by
  obtain ⟨wa, hwa⟩ := wordWrap_returns (ConvertRichText ra) 80 (prefixes ++ [str "  "]).flatten
    (by decide)
  obtain ⟨wb, hwb⟩ := wordWrap_returns (ConvertRichText rb) 80 (prefixes ++ [str "  "]).flatten
    (by decide)
  obtain ⟨wp, hwp⟩ := wordWrap_returns (ConvertRichText rp) 80 (str "") (by decide)
  exact ⟨wa, wb, wp, hwa, hwb, hwp,
    GenerateContent_bullets_paragraph world config ra rb rp prefixes out wa wb wp hp hwa hwb hwp⟩

/-- The list run ended once, at two bullets `a`, `b` and the paragraph `Hello world`, without
inherited prefix. -/
theorem GenerateContent_list_run_terminated_once_witness :
    ConvertRichText (plainText (str "Hello world")) ≠ []
      ∧ ∃ wa wb wp,
        wordWrap (ConvertRichText (plainText (str "a"))) 80 ([] ++ [str "  "]).flatten = .ok wa
        ∧ wordWrap (ConvertRichText (plainText (str "b"))) 80 ([] ++ [str "  "]).flatten = .ok wb
        ∧ wordWrap (ConvertRichText (plainText (str "Hello world"))) 80 (str "") = .ok wp
        ∧ GenerateContent offlineWorld ⟨false, [], [], []⟩ ⟨[], [], []⟩
            [Block.BulletedListItem (plainText (str "a")) [],
              Block.BulletedListItem (plainText (str "b")) [],
              Block.Paragraph (plainText (str "Hello world")) []]
            []
          = .ok { (⟨[], [], []⟩ : Output) with
              w := ([] : GoString) ++ (joinPrefixes [] ++ str "- " ++ wa ++ [0x0A])
                ++ (joinPrefixes [] ++ str "- " ++ wb ++ [0x0A])
                ++ [0x0A]
                ++ (joinPrefixes [] ++ wp ++ [0x0A]) } :=
  ⟨by decide,
    GenerateContent_list_run_terminated_once offlineWorld ⟨false, [], [], []⟩
      (plainText (str "a")) (plainText (str "b")) (plainText (str "Hello world")) []
      ⟨[], [], []⟩ (by decide)⟩

/-- For a width of at least one and the empty prefix, on a text made only of words no
longer than the width `wordWrap` returns, and every line of its output that holds a space
(that is, more than one word) is at most `lineWidth` bytes long. -/
theorem wordWrap_lines_fit_without_prefix (text : GoString) (lineWidth : Int)
    (hW : 1 ≤ lineWidth) (hshort : ∀ w ∈ Fields text, (w.length : Int) ≤ lineWidth) :
    ∃ out, wordWrap text lineWidth [] = .ok out
      ∧ ∀ line ∈ splitLines out, (0x20 : UInt8) ∈ line → (line.length : Int) ≤ lineWidth := by
  rw [wordWrap_eq_wrapWords text lineWidth [] hW]
  refine ⟨_, rfl, ?_⟩
  have hnl : ∀ we ∈ wordEnds text, (0x0A : UInt8) ∉ we.1 :=
    wordEndsLoop_no_sep _ _ _ _ 0x0A (Or.inl rfl) (by simp)
  have hsp : ∀ we ∈ wordEnds text, (0x20 : UInt8) ∉ we.1 :=
    wordEndsLoop_no_sep _ _ _ _ 0x20 (Or.inr rfl) (by simp)
  have hshort1 : ∀ we ∈ wordEnds text, (we.1.length : Int) ≤ lineWidth := by
    intro we hwe
    exact hshort we.1 (by unfold Fields; exact List.mem_map_of_mem _ hwe)
  have hspaced : wordsSpaced 0 0 (wordEnds text) :=
    wordEndsLoop_spaced text.length text 0 [] 0 0 (by simp)
  exact wrapWords_lines_fit lineWidth (wordEnds text) hnl hsp hshort1
    ([], lineWidth - (([] : GoString).length : Int)) 0 0 [] [] hspaced
    (fun h => absurd rfl h) (le_refl _) (le_refl _) rfl (by simp) (by simp)

/-- The line lengths at the text `aaaa bbbb cccc dddd`, width 10 and no prefix. -/
theorem wordWrap_lines_fit_without_prefix_witness :
    (1 : Int) ≤ 10 ∧ (∀ w ∈ Fields (str "aaaa bbbb cccc dddd"), (w.length : Int) ≤ 10)
      ∧ ∃ out, wordWrap (str "aaaa bbbb cccc dddd") 10 [] = .ok out
          ∧ ∀ line ∈ splitLines out, (0x20 : UInt8) ∈ line → (line.length : Int) ≤ 10 :=
  ⟨by decide, by decide,
    wordWrap_lines_fit_without_prefix (str "aaaa bbbb cccc dddd") 10 (by decide) (by decide)⟩

end NotionBlog
